import Mathlib

/-!
Threaded 3×3 image convolution (`pthreads-image.c`).

A shallow embedding of the convolution core of `pthreads-image.c`:
`getPixelValue`, `applyFilter`, `convolute`, `GetKernelType` and the
part of `main` that prepares the destination image.

Modelling conventions.

* C `int` values are mathematical integers (`Int`).  The image decoder only
  hands out images whose `width * height * bpp` fits an `int`, so no index
  computation of the program overflows on an image it can load.
* `uint8_t` samples are natural numbers; a stored sample is always the result
  of `toUint8`, hence below 256.  Source samples are below 256 by the
  hypothesis `Image.wf` where that matters.
* A sample buffer is a `List Nat`; `load` and `store` are the total reading
  and writing of a buffer cell (a cell outside the buffer reads 0 and a write
  outside the buffer changes nothing; the theorems only use cells inside).
* Kernel weights are C `double`s.  They are modelled as exact rationals: for
  the integer-valued and dyadic weights the theorems are about, and 8-bit
  samples, the nine products and their sum are computed exactly in `double`.
* The eight worker threads only read the source image and the kernel and each
  writes cells of the destination buffer; `convolute` runs the workers one
  after the other in creation order.
* `bitTrace`, `pixTrace`, `rowTrace` are the three loops of `applyFilter`
  again, recording the triple `(pix, row, bit)` of each assignment instead of
  performing it; replaying a trace with `writeCell` gives what the loops give.
-/

namespace PicProject

/-! ## Data model -/

/-- THREAD_COUNT, the number of worker threads (`#define THREAD_COUNT 8`). -/
def THREAD_COUNT : Nat := 8

/-- Modelled from the spec: the type `Matrix` of `image.h` (not in the sources
at hand), "a 3×3 matrix of real-valued weights"; `algorithm[i][j]` is
`algorithm i j`. -/
abbrev Matrix := Fin 3 → Fin 3 → ℚ

/-- Modelled from the spec: the enumeration `KernelTypes` of `image.h` (not in
the sources at hand), in the order of the table `algorithms`. -/
inductive KernelTypes where
  | EDGE
  | SHARPEN
  | BLUR
  | GAUSE_BLUR
  | EMBOSS
  | IDENTITY
deriving DecidableEq, Repr

/-- The position of a kernel type in the enumeration, its index into
`algorithms`. -/
def KernelTypes.toFin : KernelTypes → Fin 6
  | .EDGE => 0
  | .SHARPEN => 1
  | .BLUR => 2
  | .GAUSE_BLUR => 3
  | .EMBOSS => 4
  | .IDENTITY => 5

/-- Modelled from the spec: the struct `Image` of `image.h` (not in the
sources at hand): "a flat sample array" of interleaved channel samples "plus
width/height/channel-count metadata". -/
structure Image where
  data : List Nat
  width : Int
  height : Int
  bpp : Int
deriving DecidableEq, Repr

/-- Modelled from the spec: the macro `Index` of `image.h` (not in the sources
at hand), the offset of channel `bit` of pixel `(x, y)` in the row-major
interleaved layout with stride `width * bpp`. -/
def Index (x y width bit bpp : Int) : Int :=
  y * width * bpp + bpp * x + bit

/-- The well-formedness of a pixel buffer: the sample array has
`width * height * bpp` cells and every sample is an 8-bit value. -/
def Image.wf (img : Image) : Prop :=
  img.data.length = (img.width * img.height * img.bpp).toNat ∧
    ∀ s ∈ img.data, s < 256

/-- Reading cell `i` of a sample buffer. -/
def load (d : List Nat) (i : Int) : Nat :=
  if 0 ≤ i then d.getD i.toNat 0 else 0

/-- Writing `v` to cell `i` of a sample buffer. -/
def store (d : List Nat) (i : Int) (v : Nat) : List Nat :=
  if 0 ≤ i then d.set i.toNat v else d

/-- The conversion of the `double` weighted sum to `uint8_t`: the fraction is
discarded (truncation towards zero) and the low 8 bits of the integer are
kept, the "truncating-cast" policy of the spec (C itself leaves the
conversion of a value outside 0..255 undefined). -/
def toUint8 (q : ℚ) : Nat :=
  (Int.tdiv q.num q.den % 256).toNat

/-- The kernel table `algorithms`, indexed by `KernelTypes`.  The entries of
the box blur are the `double` nearest to 1/9, as `1/9.0` is in C. -/
def algorithms : Fin 6 → Matrix
  | 0 => ![![0, -1, 0], ![-1, 4, -1], ![0, -1, 0]]
  | 1 => ![![0, -1, 0], ![-1, 5, -1], ![0, -1, 0]]
  | 2 => fun _ _ => 2001599834386887 / 18014398509481984
  | 3 => ![![1 / 16, 1 / 8, 1 / 16], ![1 / 8, 1 / 4, 1 / 8], ![1 / 16, 1 / 8, 1 / 16]]
  | 4 => ![![-2, -1, 0], ![-1, 1, 1], ![0, 1, 2]]
  | 5 => ![![0, 0, 0], ![0, 1, 0], ![0, 0, 0]]

/-! ## `getPixelValue` -/

/-- The function `getPixelValue`: the new value of channel `bit` of pixel
`(x, y)` under the kernel `algorithm`, with the edge pixel reused for a
neighbour outside the image.  The nine products are summed exactly, where
the program rounds each operation in `double`; the two agree for integer and
dyadic weights, and can differ by one for the box blur (an image of samples
255 gives 254 here and 255 in the program), whose value no theorem states. -/
def getPixelValue (srcImage : Image) (x y bit : Int) (algorithm : Matrix) : Nat :=
  let mx := if x - 1 < 0 then 0 else x - 1
  let my := if y - 1 < 0 then 0 else y - 1
  let px := if x + 1 ≥ srcImage.width then srcImage.width - 1 else x + 1
  let py := if y + 1 ≥ srcImage.height then srcImage.height - 1 else y + 1
  toUint8 (
    algorithm 0 0 * (load srcImage.data (Index mx my srcImage.width bit srcImage.bpp) : ℚ) +
    algorithm 0 1 * (load srcImage.data (Index x my srcImage.width bit srcImage.bpp) : ℚ) +
    algorithm 0 2 * (load srcImage.data (Index px my srcImage.width bit srcImage.bpp) : ℚ) +
    algorithm 1 0 * (load srcImage.data (Index mx y srcImage.width bit srcImage.bpp) : ℚ) +
    algorithm 1 1 * (load srcImage.data (Index x y srcImage.width bit srcImage.bpp) : ℚ) +
    algorithm 1 2 * (load srcImage.data (Index px y srcImage.width bit srcImage.bpp) : ℚ) +
    algorithm 2 0 * (load srcImage.data (Index mx py srcImage.width bit srcImage.bpp) : ℚ) +
    algorithm 2 1 * (load srcImage.data (Index x py srcImage.width bit srcImage.bpp) : ℚ) +
    algorithm 2 2 * (load srcImage.data (Index px py srcImage.width bit srcImage.bpp) : ℚ))

/-! ## `applyFilter` -/

/-- The struct `thread_data`.  The shared pointer `destImage` is the state
that `applyFilter` transforms, so it is not a field here. -/
structure thread_data where
  thread_id : Int
  rowStart : Int
  rowEnd : Int
  srcImage : Image
  algorithm : Matrix

/-- The innermost loop of `applyFilter`,
`for (; bit < srcImage->bpp; bit++) destImage->data[Index(..)] = getPixelValue(..)`. -/
def bitLoop (srcImage : Image) (algorithm : Matrix) (row pix bit : Int)
    (dest : List Nat) : List Nat :=
  if h : bit < srcImage.bpp then
    bitLoop srcImage algorithm row pix (bit + 1)
      (store dest (Index pix row srcImage.width bit srcImage.bpp)
        (getPixelValue srcImage pix row bit algorithm))
  else dest
termination_by (srcImage.bpp - bit).toNat
decreasing_by omega

/-- The middle loop of `applyFilter`,
`for (; pix < srcImage->width; pix++) { for (bit = 0; ..) .. }`. -/
def pixLoop (srcImage : Image) (algorithm : Matrix) (row pix : Int)
    (dest : List Nat) : List Nat :=
  if h : pix < srcImage.width then
    pixLoop srcImage algorithm row (pix + 1) (bitLoop srcImage algorithm row pix 0 dest)
  else dest
termination_by (srcImage.width - pix).toNat
decreasing_by omega

/-- The outer loop of `applyFilter`,
`for (; row <= rowEnd && row < srcImage->height; row++) { for (pix = 0; ..) .. }`. -/
def rowLoop (srcImage : Image) (algorithm : Matrix) (rowEnd row : Int)
    (dest : List Nat) : List Nat :=
  if h : row ≤ rowEnd ∧ row < srcImage.height then
    rowLoop srcImage algorithm rowEnd (row + 1) (pixLoop srcImage algorithm row 0 dest)
  else dest
termination_by (srcImage.height - row).toNat
decreasing_by omega

/-- The function `applyFilter`: one worker applies the kernel to its rows and
writes the samples into the destination image. -/
def applyFilter (data : thread_data) (destImage : Image) : Image :=
  { destImage with
    data := rowLoop data.srcImage data.algorithm data.rowEnd data.rowStart destImage.data }

/-! ## `convolute` -/

/-- The chunk size of `convolute` for `W` workers,
`(srcImage->height + (THREAD_COUNT - 1)) / THREAD_COUNT` in C integer
division. -/
def chunkSize (height : Int) (W : Nat) : Int :=
  Int.tdiv (height + ((W : Int) - 1)) (W : Int)

/-- The descriptor that `convolute` fills in for worker `i`. -/
def mkThreadData (srcImage : Image) (algorithm : Matrix) (chunk : Int) (i : Nat) :
    thread_data :=
  let rowStart := chunk * (i : Int)
  let rowEnd := rowStart + chunk - 1
  { thread_id := i, rowStart := rowStart, rowEnd := rowEnd, srcImage := srcImage,
    algorithm := fun j k => algorithm j k }

/-- The run of `convolute` with `W` workers: worker `i` of `0 .. W-1` gets its
descriptor and runs `applyFilter`; all are joined before the return. -/
def convoluteW (W : Nat) (srcImage destImage : Image) (algorithm : Matrix) : Image :=
  let chunk := chunkSize srcImage.height W
  (List.range W).foldl
    (fun dest i => applyFilter (mkThreadData srcImage algorithm chunk i) dest) destImage

/-- The function `convolute`, with its `THREAD_COUNT` workers. -/
def convolute (srcImage destImage : Image) (algorithm : Matrix) : Image :=
  convoluteW THREAD_COUNT srcImage destImage algorithm

/-! ## `GetKernelType` and the destination set-up of `main` -/

/-- The function `GetKernelType`: the kernel type of a filter name. -/
def GetKernelType (type : String) : KernelTypes :=
  if type = "edge" then KernelTypes.EDGE
  else if type = "sharpen" then KernelTypes.SHARPEN
  else if type = "blur" then KernelTypes.BLUR
  else if type = "gauss" then KernelTypes.GAUSE_BLUR
  else if type = "emboss" then KernelTypes.EMBOSS
  else KernelTypes.IDENTITY

/-- The destination image that `main` prepares: the three dimensions are
copied from the source and `data` is a fresh block of `width * bpp * height`
cells, with whatever content `fresh` the allocator returned. -/
def mainDest (srcImage : Image) (fresh : Nat → Nat) : Image :=
  { bpp := srcImage.bpp, height := srcImage.height, width := srcImage.width,
    data := (List.range (srcImage.width * srcImage.bpp * srcImage.height).toNat).map fresh }

/-- The convolution step of `main`:
`convolute(&srcImage, &destImage, algorithms[type])`. -/
def mainConvolute (srcImage : Image) (fresh : Nat → Nat) (type : KernelTypes) : Image :=
  convolute srcImage (mainDest srcImage fresh) (algorithms type.toFin)

/-! ## Specification-side definitions -/

/-- The brute-force single-pass reference: every row, every pixel of the row,
every channel of the pixel, evaluated once by `getPixelValue`, in the order
of the interleaved row-major layout. -/
def referenceConvolve (src : Image) (k : Matrix) : List Nat :=
  (List.range src.height.toNat).flatMap fun (y : Nat) =>
    (List.range src.width.toNat).flatMap fun (x : Nat) =>
      (List.range src.bpp.toNat).map fun (c : Nat) =>
        getPixelValue src (x : Int) (y : Int) (c : Int) k

/-- The clamp of a coordinate to the valid range `lo .. hi`. -/
def clamp (v lo hi : Int) : Int := max lo (min v hi)

/-- The weighted sum of the spec for an integer-valued kernel: the sum over
`dy, dx ∈ {-1, 0, 1}` (written `i - 1`, `j - 1` for `i, j ∈ {0, 1, 2}`) of
`k[dy+1][dx+1]` times the sample of channel `c` at the neighbour
`(x + dx, y + dy)`, each coordinate clamped to the image. -/
def weightedSum (src : Image) (x y c : Int) (kz : Fin 3 → Fin 3 → Int) : Int :=
  ∑ i : Fin 3, ∑ j : Fin 3,
    kz i j * (load src.data
      (Index (clamp (x + ((j : Nat) : Int) - 1) 0 (src.width - 1))
        (clamp (y + ((i : Nat) : Int) - 1) 0 (src.height - 1)) src.width c src.bpp) : Int)

/-- Worker `data` processes row `r`: the row passes the loop test of
`applyFilter`, `rowStart <= r <= rowEnd` and `r < srcImage->height`. -/
def processesRow (data : thread_data) (r : Int) : Prop :=
  data.rowStart ≤ r ∧ r ≤ data.rowEnd ∧ r < data.srcImage.height

instance (data : thread_data) (r : Int) : Decidable (processesRow data r) := by
  unfold processesRow
  infer_instance

/-- The 3×3 single-channel image of the concrete scenario of the spec. -/
def scenarioImage : Image :=
  { data := [10, 10, 10, 10, 200, 10, 10, 10, 10], width := 3, height := 3, bpp := 1 }

/-! ## Definitions used in the proofs -/

/-- The effect of a piece of the convolution on the destination buffer: the
length is kept, every cell of the region `S` inside the buffer holds the value
`f` gives for it, and every other cell is as before. -/
def Upd (f : Int → Nat) (S : Int → Prop) (d d2 : List Nat) : Prop :=
  d2.length = d.length ∧
    ∀ j, (S j → 0 ≤ j → j < d.length → load d2 j = f j) ∧ (¬ S j → load d2 j = load d j)

/-- The cells of the rows `lo .. hi` that lie inside the image: the offsets
`Index p r width b bpp` of the rows `r` with `lo ≤ r ≤ hi` and `r < height`. -/
def rowsRegion (src : Image) (lo hi : Int) (j : Int) : Prop :=
  ∃ r p b, lo ≤ r ∧ r ≤ hi ∧ r < src.height ∧ 0 ≤ p ∧ p < src.width ∧
    0 ≤ b ∧ b < src.bpp ∧ j = Index p r src.width b src.bpp

/-- Row `r` is one of the rows worker `i` processes for chunk size `cs` and
image height `H`: it lies in `[i*cs, (i+1)*cs - 1]` and below `H`. -/
def workerRow (cs H : Int) (i : Nat) (r : Int) : Prop :=
  cs * (i : Int) ≤ r ∧ r ≤ cs * (i : Int) + cs - 1 ∧ r < H

/-- The run of the first `n` workers, one after the other. -/
def runWorkers (srcImage : Image) (algorithm : Matrix) (chunk : Int) (n : Nat)
    (destImage : Image) : Image :=
  (List.range n).foldl
    (fun dest i => applyFilter (mkThreadData srcImage algorithm chunk i) dest) destImage

/-- The value the convolution gives to cell `j` of the destination: the
`getPixelValue` of the pixel and channel whose offset is `j`. -/
def outF (src : Image) (k : Matrix) (j : Int) : Nat :=
  getPixelValue src (j / src.bpp % src.width) (j / src.bpp / src.width) (j % src.bpp) k

/-! ## Worker order, traces of the loops, rows and neighbourhoods -/

/-- The run of the workers whose indices are listed in `order`, one after the
other in that order, each with the descriptor `convolute` fills in for it. -/
def runOrder (srcImage : Image) (algorithm : Matrix) (chunk : Int) (order : List Nat)
    (destImage : Image) : Image :=
  order.foldl
    (fun dest i => applyFilter (mkThreadData srcImage algorithm chunk i) dest) destImage

/-- The trace of the innermost loop of `applyFilter`: the triples
`(pix, row, bit)` for which the loop body runs, in the order it runs them. -/
def bitTrace (srcImage : Image) (row pix bit : Int) : List (Int × Int × Int) :=
  if h : bit < srcImage.bpp then
    (pix, row, bit) :: bitTrace srcImage row pix (bit + 1)
  else []
termination_by (srcImage.bpp - bit).toNat
decreasing_by omega

/-- The trace of the middle loop of `applyFilter`. -/
def pixTrace (srcImage : Image) (row pix : Int) : List (Int × Int × Int) :=
  if _h : pix < srcImage.width then
    bitTrace srcImage row pix 0 ++ pixTrace srcImage row (pix + 1)
  else []
termination_by (srcImage.width - pix).toNat
decreasing_by omega

/-- The trace of the outer loop of `applyFilter`. -/
def rowTrace (srcImage : Image) (rowEnd row : Int) : List (Int × Int × Int) :=
  if _h : row ≤ rowEnd ∧ row < srcImage.height then
    pixTrace srcImage row 0 ++ rowTrace srcImage rowEnd (row + 1)
  else []
termination_by (srcImage.height - row).toNat
decreasing_by omega

/-- INT_MAX, the largest value of the 32-bit `int` of the program. -/
def INT_MAX : Int := 2147483647

/-- The rows for which the outer loop of `applyFilter` runs its body,
`for (; row <= rowEnd && row < srcImage->height; row++)`, in order. -/
def rowsVisited (srcImage : Image) (rowEnd row : Int) : List Int :=
  if _h : row ≤ rowEnd ∧ row < srcImage.height then
    row :: rowsVisited srcImage rowEnd (row + 1)
  else []
termination_by (srcImage.height - row).toNat
decreasing_by omega

/-- The rows one worker processes, in order. -/
def workerRows (data : thread_data) : List Int :=
  rowsVisited data.srcImage data.rowEnd data.rowStart

/-- The lower neighbour coordinate of `getPixelValue`, `mx` or `my`:
`v - 1`, replaced by 0 when it is below 0. -/
def clampLo (v : Int) : Int := if v - 1 < 0 then 0 else v - 1

/-- The upper neighbour coordinate of `getPixelValue`, `px` or `py`:
`v + 1`, replaced by `size - 1` when it is `size` or more. -/
def clampHi (v size : Int) : Int := if v + 1 ≥ size then size - 1 else v + 1

/-- The column that `getPixelValue` reads for the kernel column `j`:
`mx`, `x`, `px`. -/
def neighbourX (srcImage : Image) (x : Int) : Fin 3 → Int
  | 0 => clampLo x
  | 1 => x
  | 2 => clampHi x srcImage.width

/-- The row that `getPixelValue` reads for the kernel row `i`:
`my`, `y`, `py`. -/
def neighbourY (srcImage : Image) (y : Int) : Fin 3 → Int
  | 0 => clampLo y
  | 1 => y
  | 2 => clampHi y srcImage.height

/-- The index of the sample that `getPixelValue` multiplies by
`algorithm[i][j]`. -/
def readIndex (srcImage : Image) (x y bit : Int) (i j : Fin 3) : Int :=
  Index (neighbourX srcImage x j) (neighbourY srcImage y i) srcImage.width bit srcImage.bpp

/-- The sample that `getPixelValue` multiplies by `algorithm[i][j]`. -/
def neighbourSample (srcImage : Image) (x y bit : Int) (i j : Fin 3) : Nat :=
  load srcImage.data (readIndex srcImage x y bit i j)

/-- The numerator of the gaussian blur at a pixel: the nine samples that
`getPixelValue` reads, weighted 1 2 1, 2 4 2, 1 2 1 (sixteenths). -/
def gaussNumerator (srcImage : Image) (x y bit : Int) : Nat :=
  neighbourSample srcImage x y bit 0 0 + 2 * neighbourSample srcImage x y bit 0 1
    + neighbourSample srcImage x y bit 0 2 + 2 * neighbourSample srcImage x y bit 1 0
    + 4 * neighbourSample srcImage x y bit 1 1 + 2 * neighbourSample srcImage x y bit 1 2
    + neighbourSample srcImage x y bit 2 0 + 2 * neighbourSample srcImage x y bit 2 1
    + neighbourSample srcImage x y bit 2 2

/-! ## Buffer cells, offsets and the row partition -/

theorem store_length (d : List Nat) (i : Int) (v : Nat) :
    (store d i v).length = d.length := by
  unfold store
  split <;> simp

theorem load_store (d : List Nat) (i j : Int) (v : Nat) :
    load (store d i v) j = if j = i ∧ 0 ≤ i ∧ i < d.length then v else load d j := by
  unfold load store
  by_cases hi : 0 ≤ i
  · by_cases hj : 0 ≤ j
    · simp only [hi, hj, if_true, true_and]
      by_cases hij : j = i
      · subst hij
        by_cases hlt : j < d.length
        · have : j.toNat < d.length := by omega
          simp [hlt, List.getD_eq_getElem?_getD, List.getElem?_set, this]
        · have hge : d.length ≤ j.toNat := by omega
          have hnl : ¬ j.toNat < d.length := by omega
          simp [hlt, List.getD_eq_getElem?_getD, List.getElem?_set, List.getElem?_eq_none hge, hnl]
      · have : i.toNat ≠ j.toNat := by omega
        simp [hij, List.getD_eq_getElem?_getD, List.getElem?_set, this]
    · have : j ≠ i := by omega
      simp [hi, hj, this]
  · simp [hi]

theorem Upd_refl (f : Int → Nat) (d : List Nat) : Upd f (fun _ => False) d d :=
  ⟨rfl, fun _ => ⟨fun h => h.elim, fun _ => rfl⟩⟩

theorem Upd_congr {f : Int → Nat} {S T : Int → Prop} {d d2 : List Nat}
    (h : Upd f S d d2) (hST : ∀ j, S j ↔ T j) : Upd f T d d2 := by
  have : S = T := funext fun j => propext (hST j)
  exact this ▸ h

theorem Upd_trans {f : Int → Nat} {S T : Int → Prop} {d d2 d3 : List Nat}
    (h1 : Upd f S d d2) (h2 : Upd f T d2 d3) : Upd f (fun j => S j ∨ T j) d d3 := by
  refine ⟨h2.1.trans h1.1, fun j => ⟨?_, ?_⟩⟩
  · intro hj h0 hlt
    by_cases hT : T j
    · exact (h2.2 j).1 hT h0 (by rw [h1.1]; exact hlt)
    · rw [(h2.2 j).2 hT]
      rcases hj with hS | hT2
      · exact (h1.2 j).1 hS h0 hlt
      · exact absurd hT2 hT
  · intro hj
    rw [(h2.2 j).2 (fun h => hj (Or.inr h)), (h1.2 j).2 (fun h => hj (Or.inl h))]

theorem Upd_store (f : Int → Nat) (d : List Nat) (i : Int) (v : Nat) (hv : v = f i) :
    Upd f (fun j => j = i) d (store d i v) := by
  refine ⟨store_length d i v, fun j => ⟨?_, ?_⟩⟩
  · intro hj h0 hlt
    subst hj
    rw [load_store]
    simp [h0, hlt, hv]
  · intro hj
    rw [load_store]
    simp [hj]

theorem bitLoop_Upd (f : Int → Nat) (src : Image) (k : Matrix) (row pix : Int)
    (bit : Int) (dest : List Nat)
    (hf : ∀ b, bit ≤ b → b < src.bpp →
      getPixelValue src pix row b k = f (Index pix row src.width b src.bpp)) :
    Upd f (fun j => ∃ b, bit ≤ b ∧ b < src.bpp ∧ j = Index pix row src.width b src.bpp)
      dest (bitLoop src k row pix bit dest) := by
  induction bit, dest using bitLoop.induct src k row pix with
  | case1 bit dest hlt ih =>
    rw [bitLoop, dif_pos hlt]
    have h1 := Upd_store f dest (Index pix row src.width bit src.bpp)
      (getPixelValue src pix row bit k) (hf bit le_rfl hlt)
    have h2 := ih (fun b hb hb2 => hf b (by omega) hb2)
    refine Upd_congr (Upd_trans h1 h2) (fun j => ⟨?_, ?_⟩)
    · rintro (h | ⟨b, hb, hb2, rfl⟩)
      · exact ⟨bit, le_rfl, hlt, h⟩
      · exact ⟨b, by omega, hb2, rfl⟩
    · rintro ⟨b, hb, hb2, rfl⟩
      by_cases hbb : b = bit
      · left; rw [hbb]
      · right; exact ⟨b, by omega, hb2, rfl⟩
  | case2 bit dest hlt =>
    rw [bitLoop, dif_neg hlt]
    refine Upd_congr (Upd_refl f dest) (fun j => ⟨fun h => h.elim, ?_⟩)
    rintro ⟨b, hb, hb2, _⟩
    omega

theorem pixLoop_Upd (f : Int → Nat) (src : Image) (k : Matrix) (row : Int)
    (pix : Int) (dest : List Nat)
    (hf : ∀ p b, pix ≤ p → p < src.width → 0 ≤ b → b < src.bpp →
      getPixelValue src p row b k = f (Index p row src.width b src.bpp)) :
    Upd f (fun j => ∃ p b, pix ≤ p ∧ p < src.width ∧ 0 ≤ b ∧ b < src.bpp ∧
        j = Index p row src.width b src.bpp)
      dest (pixLoop src k row pix dest) := by
  induction pix, dest using pixLoop.induct src k row with
  | case1 pix dest hlt ih =>
    rw [pixLoop, dif_pos hlt]
    have h1 := bitLoop_Upd f src k row pix 0 dest (fun b hb hb2 => hf pix b le_rfl hlt hb hb2)
    have h2 := ih (fun p b hp hp2 hb hb2 => hf p b (by omega) hp2 hb hb2)
    refine Upd_congr (Upd_trans h1 h2) (fun j => ⟨?_, ?_⟩)
    · rintro (⟨b, hb, hb2, rfl⟩ | ⟨p, b, hp, hp2, hb, hb2, rfl⟩)
      · exact ⟨pix, b, le_rfl, hlt, hb, hb2, rfl⟩
      · exact ⟨p, b, by omega, hp2, hb, hb2, rfl⟩
    · rintro ⟨p, b, hp, hp2, hb, hb2, rfl⟩
      by_cases hpp : p = pix
      · left; exact ⟨b, hb, hb2, by rw [hpp]⟩
      · right; exact ⟨p, b, by omega, hp2, hb, hb2, rfl⟩
  | case2 pix dest hlt =>
    rw [pixLoop, dif_neg hlt]
    refine Upd_congr (Upd_refl f dest) (fun j => ⟨fun h => h.elim, ?_⟩)
    rintro ⟨p, b, hp, hp2, _⟩
    omega

theorem rowLoop_Upd (f : Int → Nat) (src : Image) (k : Matrix) (rowEnd : Int)
    (row : Int) (dest : List Nat)
    (hf : ∀ r p b, row ≤ r → r ≤ rowEnd → r < src.height → 0 ≤ p → p < src.width →
      0 ≤ b → b < src.bpp →
      getPixelValue src p r b k = f (Index p r src.width b src.bpp)) :
    Upd f (rowsRegion src row rowEnd) dest (rowLoop src k rowEnd row dest) := by
  induction row, dest using rowLoop.induct src k rowEnd with
  | case1 row dest hlt ih =>
    rw [rowLoop, dif_pos hlt]
    have h1 := pixLoop_Upd f src k row 0 dest
      (fun p b hp hp2 hb hb2 => hf row p b le_rfl hlt.1 hlt.2 hp hp2 hb hb2)
    have h2 := ih (fun r p b hr => hf r p b (by omega))
    refine Upd_congr (Upd_trans h1 h2) (fun j => ⟨?_, ?_⟩)
    · rintro (⟨p, b, hp, hp2, hb, hb2, rfl⟩ | ⟨r, p, b, hr, hr2, hr3, hp, hp2, hb, hb2, rfl⟩)
      · exact ⟨row, p, b, le_rfl, hlt.1, hlt.2, hp, hp2, hb, hb2, rfl⟩
      · exact ⟨r, p, b, by omega, hr2, hr3, hp, hp2, hb, hb2, rfl⟩
    · rintro ⟨r, p, b, hr, hr2, hr3, hp, hp2, hb, hb2, rfl⟩
      by_cases hrr : r = row
      · left; exact ⟨p, b, hp, hp2, hb, hb2, by rw [hrr]⟩
      · right; exact ⟨r, p, b, by omega, hr2, hr3, hp, hp2, hb, hb2, rfl⟩
  | case2 row dest hlt =>
    rw [rowLoop, dif_neg hlt]
    refine Upd_congr (Upd_refl f dest) (fun j => ⟨fun h => h.elim, ?_⟩)
    rintro ⟨r, p, b, hr, hr2, hr3, _⟩
    omega

theorem ediv_emod_unique (q r d : Int) (h0 : 0 ≤ r) (h1 : r < d) :
    (q * d + r) / d = q ∧ (q * d + r) % d = r := by
  have hd : d ≠ 0 := by omega
  constructor
  · rw [add_comm, Int.add_mul_ediv_right _ _ hd, Int.ediv_eq_zero_of_lt h0 h1, zero_add]
  · rw [add_comm, Int.add_mul_emod_self, Int.emod_eq_of_lt h0 h1]

theorem Index_eq (p r w c b : Int) : Index p r w c b = (r * w + p) * b + c := by
  unfold Index; ring

theorem Index_decode (p r w c b : Int) (hp : 0 ≤ p) (hp2 : p < w) (hc : 0 ≤ c) (hc2 : c < b) :
    Index p r w c b % b = c ∧ Index p r w c b / b % w = p ∧ Index p r w c b / b / w = r := by
  rw [Index_eq]
  obtain ⟨h1, h2⟩ := ediv_emod_unique (r * w + p) c b hc hc2
  obtain ⟨h3, h4⟩ := ediv_emod_unique r p w hp hp2
  rw [h1, h2, h3, h4]
  exact ⟨rfl, rfl, rfl⟩

theorem Index_encode (j w b : Int) : Index (j / b % w) (j / b / w) w (j % b) b = j := by
  rw [Index_eq]
  have h1 := Int.ediv_add_emod (j / b) w
  have h2 := Int.ediv_add_emod j b
  have : j / b / w * w + j / b % w = j / b := by rw [mul_comm]; exact h1
  rw [this, mul_comm]; exact h2

theorem decode_bounds (j w h b : Int) (hw : 0 < w) (hb : 0 < b) (h0 : 0 ≤ j)
    (hlt : j < w * h * b) :
    0 ≤ j % b ∧ j % b < b ∧ 0 ≤ j / b % w ∧ j / b % w < w ∧ 0 ≤ j / b / w ∧ j / b / w < h := by
  have hb0 : b ≠ 0 := by omega
  have hw0 : w ≠ 0 := by omega
  have h1 : 0 ≤ j / b := Int.ediv_nonneg h0 hb.le
  refine ⟨Int.emod_nonneg j hb0, Int.emod_lt_of_pos j hb, Int.emod_nonneg _ hw0,
    Int.emod_lt_of_pos _ hw, Int.ediv_nonneg h1 hw.le, ?_⟩
  have h2 : j / b < h * w := by
    apply Int.ediv_lt_of_lt_mul hb
    calc j < w * h * b := hlt
      _ = h * w * b := by ring
  exact Int.ediv_lt_of_lt_mul hw h2

theorem Index_bounds (p r w h c b : Int) (hp : 0 ≤ p) (hp2 : p < w) (hr : 0 ≤ r) (hr2 : r < h)
    (hc : 0 ≤ c) (hc2 : c < b) :
    0 ≤ Index p r w c b ∧ Index p r w c b < w * h * b := by
  rw [Index_eq]
  have h1 : 0 ≤ r * w := mul_nonneg hr (by omega)
  have h2 : 0 ≤ (r * w + p) * b := mul_nonneg (by omega) (by omega)
  have h3 : r * w + p + 1 ≤ h * w := by
    have : (r + 1) * w ≤ h * w := mul_le_mul_of_nonneg_right (by omega) (by omega)
    have e : (r + 1) * w = r * w + w := by ring
    omega
  have h4 : (r * w + p + 1) * b ≤ h * w * b := mul_le_mul_of_nonneg_right h3 (by omega)
  have e1 : (r * w + p + 1) * b = (r * w + p) * b + b := by ring
  have e2 : h * w * b = w * h * b := by ring
  constructor
  · omega
  · omega

theorem chunkSize_eq (H : Int) (W : Nat) (hH : 1 ≤ H) (hW : 1 ≤ W) :
    chunkSize H W = (H + ((W : Int) - 1)) / (W : Int) := by
  unfold chunkSize
  exact Int.tdiv_eq_ediv (by omega) (by omega)

theorem chunkSize_bounds (H : Int) (W : Nat) (hH : 1 ≤ H) (hW : 1 ≤ W) :
    1 ≤ chunkSize H W ∧ H ≤ chunkSize H W * (W : Int) := by
  rw [chunkSize_eq H W hH hW]
  have hWpos : (0 : Int) < (W : Int) := by omega
  constructor
  · rw [Int.le_ediv_iff_mul_le hWpos]; omega
  · have := Int.lt_ediv_add_one_mul_self (H + ((W : Int) - 1)) hWpos
    have e : ((H + ((W : Int) - 1)) / (W : Int) + 1) * (W : Int)
        = (H + ((W : Int) - 1)) / (W : Int) * (W : Int) + (W : Int) := by ring
    omega

theorem workerRow_exists (cs H : Int) (W : Nat) (hcs : 1 ≤ cs) (hcov : H ≤ cs * (W : Int))
    (r : Int) (h0 : 0 ≤ r) (hr : r < H) : ∃ i : Nat, i < W ∧ workerRow cs H i r := by
  have hpos : 0 < cs := by omega
  have hq : 0 ≤ r / cs := Int.ediv_nonneg h0 hpos.le
  have h1 : cs * (r / cs) ≤ r := Int.mul_ediv_self_le (by omega)
  have h2 : r < cs * (r / cs) + cs := Int.lt_mul_ediv_self_add hpos
  have h3 : r / cs < (W : Int) := Int.ediv_lt_of_lt_mul hpos (by rw [mul_comm]; omega)
  refine ⟨(r / cs).toNat, by omega, ?_⟩
  unfold workerRow
  rw [Int.toNat_of_nonneg hq]
  omega

theorem workerRow_unique (cs H : Int) (i i2 : Nat) (r : Int)
    (h1 : workerRow cs H i r) (h2 : workerRow cs H i2 r) : i = i2 := by
  unfold workerRow at h1 h2
  have e1 := (ediv_emod_unique (i : Int) (r - cs * i) cs (by omega) (by omega)).1
  have e2 := (ediv_emod_unique (i2 : Int) (r - cs * i2) cs (by omega) (by omega)).1
  have a1 : (i : Int) * cs + (r - cs * i) = r := by ring
  have a2 : (i2 : Int) * cs + (r - cs * i2) = r := by ring
  rw [a1] at e1
  rw [a2] at e2
  have : (i : Int) = (i2 : Int) := by rw [← e1, ← e2]
  exact_mod_cast this

theorem runWorkers_succ (src : Image) (k : Matrix) (cs : Int) (n : Nat) (dest : Image) :
    runWorkers src k cs (n + 1) dest
      = applyFilter (mkThreadData src k cs n) (runWorkers src k cs n dest) := by
  unfold runWorkers
  rw [List.range_succ, List.foldl_append]
  rfl

theorem convoluteW_eq (W : Nat) (src dest : Image) (k : Matrix) :
    convoluteW W src dest k = runWorkers src k (chunkSize src.height W) W dest := rfl

theorem runWorkers_dims (src : Image) (k : Matrix) (cs : Int) (n : Nat) (dest : Image) :
    (runWorkers src k cs n dest).width = dest.width ∧
    (runWorkers src k cs n dest).height = dest.height ∧
    (runWorkers src k cs n dest).bpp = dest.bpp := by
  induction n with
  | zero => exact ⟨rfl, rfl, rfl⟩
  | succ n ih =>
    rw [runWorkers_succ]
    exact ih

theorem runWorkers_Upd (f : Int → Nat) (src : Image) (k : Matrix) (cs : Int)
    (hf : ∀ r p b, 0 ≤ p → p < src.width → 0 ≤ b → b < src.bpp →
      getPixelValue src p r b k = f (Index p r src.width b src.bpp))
    (n : Nat) (dest : Image) :
    Upd f (fun j => ∃ i : Nat, i < n ∧ rowsRegion src (cs * (i : Int)) (cs * (i : Int) + cs - 1) j)
      dest.data (runWorkers src k cs n dest).data := by
  induction n with
  | zero =>
    refine Upd_congr (Upd_refl f dest.data) (fun j => ⟨fun h => h.elim, ?_⟩)
    rintro ⟨i, hi, _⟩
    omega
  | succ n ih =>
    rw [runWorkers_succ]
    have h2 : Upd f (rowsRegion src (cs * (n : Int)) (cs * (n : Int) + cs - 1))
        (runWorkers src k cs n dest).data
        (applyFilter (mkThreadData src k cs n) (runWorkers src k cs n dest)).data :=
      rowLoop_Upd f src k (cs * (n : Int) + cs - 1) (cs * (n : Int)) _
        (fun r p b _ _ _ hp hp2 hb hb2 => hf r p b hp hp2 hb hb2)
    refine Upd_congr (Upd_trans ih h2) (fun j => ⟨?_, ?_⟩)
    · rintro (⟨i, hi, h⟩ | h)
      · exact ⟨i, by omega, h⟩
      · exact ⟨n, by omega, h⟩
    · rintro ⟨i, hi, h⟩
      by_cases hin : i = n
      · right; rw [← hin]; exact h
      · left; exact ⟨i, by omega, h⟩

theorem outF_Index (src : Image) (k : Matrix) (p r b : Int) (hp : 0 ≤ p) (hp2 : p < src.width)
    (hb : 0 ≤ b) (hb2 : b < src.bpp) :
    getPixelValue src p r b k = outF src k (Index p r src.width b src.bpp) := by
  obtain ⟨h1, h2, h3⟩ := Index_decode p r src.width b src.bpp hp hp2 hb hb2
  unfold outF
  rw [h1, h2, h3]

theorem load_natCast (d : List Nat) (n : Nat) (h : n < d.length) : load d (n : Int) = d[n] := by
  unfold load
  simp [List.getD_eq_getElem?_getD, h]

theorem list_ext_load (l1 l2 : List Nat) (hlen : l1.length = l2.length)
    (h : ∀ j : Int, 0 ≤ j → j < l1.length → load l1 j = load l2 j) : l1 = l2 := by
  apply List.ext_getElem hlen
  intro n h1 h2
  have := h (n : Int) (by omega) (by omega)
  rw [load_natCast l1 n h1, load_natCast l2 n h2] at this
  exact this

theorem rowsRegion_of_lt (src : Image) (W : Nat) (hw : 1 ≤ src.width) (hh : 1 ≤ src.height)
    (hb : 1 ≤ src.bpp) (hW : 1 ≤ W) (j : Int) (h0 : 0 ≤ j)
    (hlt : j < src.width * src.height * src.bpp) :
    ∃ i : Nat, i < W ∧ rowsRegion src (chunkSize src.height W * (i : Int))
      (chunkSize src.height W * (i : Int) + chunkSize src.height W - 1) j := by
  obtain ⟨c0, c1, x0, x1, y0, y1⟩ :=
    decode_bounds j src.width src.height src.bpp (by omega) (by omega) h0 hlt
  obtain ⟨hcs, hcov⟩ := chunkSize_bounds src.height W hh hW
  obtain ⟨i, hi, hr1, hr2, hr3⟩ :=
    workerRow_exists (chunkSize src.height W) src.height W hcs hcov _ y0 y1
  exact ⟨i, hi, j / src.bpp / src.width, j / src.bpp % src.width, j % src.bpp,
    hr1, hr2, hr3, x0, x1, c0, c1, (Index_encode j src.width src.bpp).symm⟩

theorem convoluteW_length (W : Nat) (src dest : Image) (k : Matrix) :
    (convoluteW W src dest k).data.length = dest.data.length := by
  rw [convoluteW_eq]
  exact (runWorkers_Upd (outF src k) src k _
    (fun r p b hp hp2 hb hb2 => outF_Index src k p r b hp hp2 hb hb2) W dest).1

theorem convoluteW_load (W : Nat) (src dest : Image) (k : Matrix)
    (hw : 1 ≤ src.width) (hh : 1 ≤ src.height) (hb : 1 ≤ src.bpp) (hW : 1 ≤ W)
    (hlen : dest.data.length = (src.width * src.height * src.bpp).toNat)
    (j : Int) (h0 : 0 ≤ j) (hlt : j < src.width * src.height * src.bpp) :
    load (convoluteW W src dest k).data j = outF src k j := by
  rw [convoluteW_eq]
  have U := runWorkers_Upd (outF src k) src k (chunkSize src.height W)
    (fun r p b hp hp2 hb hb2 => outF_Index src k p r b hp hp2 hb hb2) W dest
  exact (U.2 j).1 (rowsRegion_of_lt src W hw hh hb hW j h0 hlt) h0 (by omega)

theorem flatMap_range_length (g : Nat → List Nat) (m : Nat) (n : Nat)
    (h : ∀ i, i < n → (g i).length = m) : ((List.range n).flatMap g).length = n * m := by
  induction n with
  | zero => simp
  | succ n ih =>
    rw [List.range_succ, List.flatMap_append, List.length_append,
      ih (fun i hi => h i (by omega))]
    simp [h n (by omega)]
    ring

theorem flatMap_range_getElem? (g : Nat → List Nat) (m : Nat) (n : Nat)
    (h : ∀ i, i < n → (g i).length = m) (i r : Nat) (hi : i < n) (hr : r < m) :
    ((List.range n).flatMap g)[i * m + r]? = (g i)[r]? := by
  induction n with
  | zero => omega
  | succ n ih =>
    have hl := flatMap_range_length g m n (fun i hi => h i (by omega))
    rw [List.range_succ, List.flatMap_append]
    by_cases hin : i < n
    · have : i * m + r < ((List.range n).flatMap g).length := by
        rw [hl]
        have : (i + 1) * m ≤ n * m := Nat.mul_le_mul_right m (by omega)
        have e : (i + 1) * m = i * m + m := by ring
        omega
      rw [List.getElem?_append_left this]
      exact ih (fun i hi => h i (by omega)) hin
    · have hieq : i = n := by omega
      subst hieq
      rw [List.getElem?_append_right (by rw [hl]; omega), hl]
      simp

theorem reference_inner_length (src : Image) (k : Matrix) (y : Nat) :
    ((List.range src.width.toNat).flatMap fun (x : Nat) =>
      (List.range src.bpp.toNat).map fun (c : Nat) =>
        getPixelValue src (x : Int) (y : Int) (c : Int) k).length
      = src.width.toNat * src.bpp.toNat :=
  flatMap_range_length _ _ _ (fun i _ => by simp)

theorem reference_length (src : Image) (k : Matrix)
    (hw : 0 ≤ src.width) (hh : 0 ≤ src.height) (hb : 0 ≤ src.bpp) :
    (referenceConvolve src k).length = (src.width * src.height * src.bpp).toNat := by
  unfold referenceConvolve
  rw [flatMap_range_length _ (src.width.toNat * src.bpp.toNat) _
    (fun y _ => reference_inner_length src k y)]
  apply Int.ofNat_inj.mp
  have hnn : 0 ≤ src.width * src.height * src.bpp := mul_nonneg (mul_nonneg hw hh) hb
  push_cast
  rw [Int.toNat_of_nonneg hw, Int.toNat_of_nonneg hh, Int.toNat_of_nonneg hb,
    Int.toNat_of_nonneg hnn]
  ring

theorem reference_load (src : Image) (k : Matrix)
    (hw : 1 ≤ src.width) (hb : 1 ≤ src.bpp)
    (j : Int) (h0 : 0 ≤ j) (hlt : j < src.width * src.height * src.bpp) :
    load (referenceConvolve src k) j = outF src k j := by
  obtain ⟨c0, c1, x0, x1, y0, y1⟩ :=
    decode_bounds j src.width src.height src.bpp (by omega) (by omega) h0 hlt
  have hwn : 0 ≤ src.width := by omega
  have hbn : 0 ≤ src.bpp := by omega
  have e : j.toNat = (j / src.bpp / src.width).toNat * (src.width.toNat * src.bpp.toNat)
      + ((j / src.bpp % src.width).toNat * src.bpp.toNat + (j % src.bpp).toNat) := by
    apply Int.ofNat_inj.mp
    push_cast
    rw [Int.toNat_of_nonneg h0, Int.toNat_of_nonneg y0, Int.toNat_of_nonneg x0,
      Int.toNat_of_nonneg c0, Int.toNat_of_nonneg hwn, Int.toNat_of_nonneg hbn]
    have h1 := Index_encode j src.width src.bpp
    rw [Index_eq] at h1
    have h2 : (j / src.bpp / src.width * src.width + j / src.bpp % src.width) * src.bpp
        = j / src.bpp / src.width * (src.width * src.bpp)
          + j / src.bpp % src.width * src.bpp := by ring
    omega
  have hY : (j / src.bpp / src.width).toNat < src.height.toNat := by omega
  have hX : (j / src.bpp % src.width).toNat < src.width.toNat := by omega
  have hC : (j % src.bpp).toNat < src.bpp.toNat := by omega
  have hXC : (j / src.bpp % src.width).toNat * src.bpp.toNat + (j % src.bpp).toNat
      < src.width.toNat * src.bpp.toNat := by
    have : ((j / src.bpp % src.width).toNat + 1) * src.bpp.toNat
        ≤ src.width.toNat * src.bpp.toNat := Nat.mul_le_mul_right _ (by omega)
    have e2 : ((j / src.bpp % src.width).toNat + 1) * src.bpp.toNat
        = (j / src.bpp % src.width).toNat * src.bpp.toNat + src.bpp.toNat := by ring
    omega
  have key : (referenceConvolve src k)[j.toNat]? = some (outF src k j) := by
    rw [e]
    unfold referenceConvolve
    rw [flatMap_range_getElem? _ (src.width.toNat * src.bpp.toNat) _
      (fun y _ => reference_inner_length src k y) _ _ hY hXC]
    rw [flatMap_range_getElem? _ src.bpp.toNat _ (fun i _ => by simp) _ _ hX hC]
    rw [List.getElem?_map, List.getElem?_range hC]
    simp only [Option.map_some']
    unfold outF
    rw [Int.toNat_of_nonneg y0, Int.toNat_of_nonneg x0, Int.toNat_of_nonneg c0]
  unfold load
  rw [if_pos h0, List.getD_eq_getElem?_getD, key]
  rfl

theorem convoluteW_data_eq_reference (W : Nat) (src dest : Image) (k : Matrix)
    (hw : 1 ≤ src.width) (hh : 1 ≤ src.height) (hb : 1 ≤ src.bpp) (hW : 1 ≤ W)
    (hlen : dest.data.length = (src.width * src.height * src.bpp).toNat) :
    (convoluteW W src dest k).data = referenceConvolve src k := by
  have hl := convoluteW_length W src dest k
  apply list_ext_load
  · rw [hl, hlen, reference_length src k (by omega) (by omega) (by omega)]
  · intro j h0 hlt
    have hlt2 : j < src.width * src.height * src.bpp := by omega
    rw [convoluteW_load W src dest k hw hh hb hW hlen j h0 hlt2,
      reference_load src k hw hb j h0 hlt2]

theorem toUint8_intCast (n : Int) : toUint8 (n : ℚ) = (n % 256).toNat := by
  unfold toUint8
  rw [Rat.num_intCast, Rat.den_intCast]
  simp

theorem toUint8_natCast (n : Nat) : toUint8 (n : ℚ) = n % 256 := by
  have := toUint8_intCast (n : Int)
  simp only [Int.cast_natCast] at this
  rw [this]
  omega

theorem getPixelValue_int (src : Image) (x y c : Int) (k : Matrix) (kz : Fin 3 → Fin 3 → Int)
    (hk : ∀ i j, k i j = (kz i j : ℚ))
    (hx : 0 ≤ x) (hx2 : x < src.width) (hy : 0 ≤ y) (hy2 : y < src.height) :
    getPixelValue src x y c k = (weightedSum src x y c kz % 256).toNat := by
  rw [← toUint8_intCast]
  unfold getPixelValue weightedSum
  have cx0 : clamp (x + 0 - 1) 0 (src.width - 1) = if x - 1 < 0 then 0 else x - 1 := by
    unfold clamp; split <;> omega
  have cx1 : clamp (x + 1 - 1) 0 (src.width - 1) = x := by
    unfold clamp; omega
  have cx2 : clamp (x + 2 - 1) 0 (src.width - 1)
      = if x + 1 ≥ src.width then src.width - 1 else x + 1 := by
    unfold clamp; split <;> omega
  have cy0 : clamp (y + 0 - 1) 0 (src.height - 1) = if y - 1 < 0 then 0 else y - 1 := by
    unfold clamp; split <;> omega
  have cy1 : clamp (y + 1 - 1) 0 (src.height - 1) = y := by
    unfold clamp; omega
  have cy2 : clamp (y + 2 - 1) 0 (src.height - 1)
      = if y + 1 ≥ src.height then src.height - 1 else y + 1 := by
    unfold clamp; split <;> omega
  simp only [Fin.sum_univ_three, Fin.val_zero, Fin.val_one, Fin.val_two, Nat.cast_zero,
    Nat.cast_one, Nat.cast_ofNat, cx0, cx1, cx2, cy0, cy1, cy2, hk]
  push_cast
  congr 1
  ring

theorem getPixelValue_identity (src : Image) (x y c : Int) :
    getPixelValue src x y c (algorithms 5)
      = load src.data (Index x y src.width c src.bpp) % 256 := by
  rw [← toUint8_natCast]
  unfold getPixelValue
  simp [algorithms, Matrix.vecHead, Matrix.vecTail]

theorem load_lt_256 (d : List Nat) (hd : ∀ s ∈ d, s < 256) (j : Int) : load d j < 256 := by
  unfold load
  split
  · rw [List.getD_eq_getElem?_getD]
    cases h : d[j.toNat]? with
    | none => simp
    | some v => exact hd v (List.getElem?_mem h)
  · omega

theorem not_rowsRegion (src : Image) (lo hi x y c : Int)
    (hx : 0 ≤ x) (hx2 : x < src.width) (hc : 0 ≤ c) (hc2 : c < src.bpp)
    (hy : ¬ (lo ≤ y ∧ y ≤ hi ∧ y < src.height)) :
    ¬ rowsRegion src lo hi (Index x y src.width c src.bpp) := by
  rintro ⟨r, p, b, hr, hr2, hr3, hp, hp2, hb, hb2, e⟩
  have h1 := (Index_decode x y src.width c src.bpp hx hx2 hc hc2).2.2
  have h2 := (Index_decode p r src.width b src.bpp hp hp2 hb hb2).2.2
  rw [e, h2] at h1
  subst h1
  exact hy ⟨hr, hr2, hr3⟩

theorem bitLoop_length (src : Image) (k : Matrix) (row pix bit : Int) (dest : List Nat) :
    (bitLoop src k row pix bit dest).length = dest.length := by
  induction bit, dest using bitLoop.induct src k row pix with
  | case1 bit dest hlt ih => rw [bitLoop, dif_pos hlt, ih, store_length]
  | case2 bit dest hlt => rw [bitLoop, dif_neg hlt]

theorem pixLoop_length (src : Image) (k : Matrix) (row pix : Int) (dest : List Nat) :
    (pixLoop src k row pix dest).length = dest.length := by
  induction pix, dest using pixLoop.induct src k row with
  | case1 pix dest hlt ih => rw [pixLoop, dif_pos hlt, ih, bitLoop_length]
  | case2 pix dest hlt => rw [pixLoop, dif_neg hlt]

theorem rowLoop_length (src : Image) (k : Matrix) (rowEnd row : Int) (dest : List Nat) :
    (rowLoop src k rowEnd row dest).length = dest.length := by
  induction row, dest using rowLoop.induct src k rowEnd with
  | case1 row dest hlt ih => rw [rowLoop, dif_pos hlt, ih, pixLoop_length]
  | case2 row dest hlt => rw [rowLoop, dif_neg hlt]

theorem applyFilter_length (data : thread_data) (dest : Image) :
    (applyFilter data dest).data.length = dest.data.length :=
  rowLoop_length data.srcImage data.algorithm data.rowEnd data.rowStart dest.data

theorem Upd_unique {f : Int → Nat} {S T : Int → Prop} {d d1 d2 : List Nat}
    (h1 : Upd f S d d1) (h2 : Upd f T d d2) (hST : ∀ j, S j ↔ T j) : d1 = d2 := by
  apply list_ext_load
  · rw [h1.1, h2.1]
  · intro j h0 hlt
    rw [h1.1] at hlt
    by_cases hS : S j
    · rw [(h1.2 j).1 hS h0 hlt, (h2.2 j).1 ((hST j).1 hS) h0 hlt]
    · rw [(h1.2 j).2 hS, (h2.2 j).2 (fun h => hS ((hST j).2 h))]

theorem applyFilter_comm (src : Image) (k : Matrix) (cs : Int) (i j : Nat) (d : Image) :
    applyFilter (mkThreadData src k cs i) (applyFilter (mkThreadData src k cs j) d)
      = applyFilter (mkThreadData src k cs j) (applyFilter (mkThreadData src k cs i) d) := by
  have hf : ∀ r p b, 0 ≤ p → p < src.width → 0 ≤ b → b < src.bpp →
      getPixelValue src p r b k = outF src k (Index p r src.width b src.bpp) :=
    fun r p b hp hp2 hb1 hb2 => outF_Index src k p r b hp hp2 hb1 hb2
  have U : ∀ (n : Nat) (l : List Nat),
      Upd (outF src k) (rowsRegion src (cs * (n : Int)) (cs * (n : Int) + cs - 1)) l
        (applyFilter (mkThreadData src k cs n) ⟨l, d.width, d.height, d.bpp⟩).data :=
    fun n l => rowLoop_Upd (outF src k) src k (cs * (n : Int) + cs - 1) (cs * (n : Int)) l
      (fun r p b _ _ _ hp hp2 hb1 hb2 => hf r p b hp hp2 hb1 hb2)
  have e := Upd_unique (Upd_trans (U j d.data) (U i _)) (Upd_trans (U i d.data) (U j _))
    (fun _ => Or.comm)
  unfold applyFilter at e ⊢
  simp only at e ⊢
  rw [e]

theorem runOrder_perm (src : Image) (k : Matrix) (cs : Int) (l1 l2 : List Nat) (d : Image)
    (p : l1.Perm l2) :
    runOrder src k cs l1 d = runOrder src k cs l2 d := by
  unfold runOrder
  exact p.foldl_eq' (fun x _ y _ z => applyFilter_comm src k cs y x z) d

theorem mem_rowsVisited (src : Image) (rowEnd row r : Int) :
    r ∈ rowsVisited src rowEnd row ↔ row ≤ r ∧ r ≤ rowEnd ∧ r < src.height := by
  induction row using rowsVisited.induct src rowEnd with
  | case1 row hlt ih =>
    rw [rowsVisited, dif_pos hlt, List.mem_cons, ih]
    omega
  | case2 row hlt =>
    rw [rowsVisited, dif_neg hlt]
    simp only [List.not_mem_nil, false_iff]
    omega

theorem length_rowsVisited (src : Image) (rowEnd row : Int) :
    ((rowsVisited src rowEnd row).length : Int)
      = max 0 (min (rowEnd + 1) src.height - row) := by
  induction row using rowsVisited.induct src rowEnd with
  | case1 row hlt ih =>
    rw [rowsVisited, dif_pos hlt, List.length_cons]
    push_cast
    rw [ih]
    omega
  | case2 row hlt =>
    rw [rowsVisited, dif_neg hlt]
    simp only [List.length_nil, Nat.cast_zero]
    omega

theorem rowTrace_eq_flatMap (src : Image) (rowEnd row : Int) :
    rowTrace src rowEnd row = (rowsVisited src rowEnd row).flatMap fun r => pixTrace src r 0 := by
  induction row using rowsVisited.induct src rowEnd with
  | case1 row hlt ih =>
    rw [rowTrace, dif_pos hlt, rowsVisited, dif_pos hlt, List.flatMap_cons, ih]
  | case2 row hlt =>
    rw [rowTrace, dif_neg hlt, rowsVisited, dif_neg hlt]
    rfl

theorem workerRows_eq_nil (src : Image) (k : Matrix) (cs : Int) (i : Nat) (hcs : 1 ≤ cs) :
    workerRows (mkThreadData src k cs i) = [] ↔ src.height ≤ cs * (i : Int) := by
  have hl := length_rowsVisited src (cs * (i : Int) + cs - 1) (cs * (i : Int))
  constructor
  · intro h
    have h2 : ((rowsVisited src (cs * (i : Int) + cs - 1) (cs * (i : Int))).length : Int) = 0 := by
      have : rowsVisited src (cs * (i : Int) + cs - 1) (cs * (i : Int)) = [] := h
      rw [this]; rfl
    omega
  · intro h
    apply List.eq_nil_of_length_eq_zero
    have : ((rowsVisited src (cs * (i : Int) + cs - 1) (cs * (i : Int))).length : Int) = 0 := by
      omega
    exact_mod_cast this

theorem chunkSize_eight (H : Int) (h0 : 0 ≤ H) :
    chunkSize H THREAD_COUNT = (H + 7) / 8 := by
  unfold chunkSize THREAD_COUNT
  rw [Int.tdiv_eq_ediv (by omega) (by omega)]
  rfl

theorem getPixelValue_eq_sum (src : Image) (x y bit : Int) (k : Matrix) :
    getPixelValue src x y bit k
      = toUint8 (∑ i : Fin 3, ∑ j : Fin 3, k i j * (neighbourSample src x y bit i j : ℚ)) := by
  unfold getPixelValue
  simp only [Fin.sum_univ_three, neighbourSample, readIndex, neighbourX, neighbourY, clampLo,
    clampHi]
  congr 1
  ring

theorem neighbourX_bounds (src : Image) (x : Int) (hx : 0 ≤ x) (hx2 : x < src.width)
    (j : Fin 3) : 0 ≤ neighbourX src x j ∧ neighbourX src x j < src.width := by
  fin_cases j
  · show 0 ≤ clampLo x ∧ clampLo x < src.width
    unfold clampLo; split <;> omega
  · exact ⟨hx, hx2⟩
  · show 0 ≤ clampHi x src.width ∧ clampHi x src.width < src.width
    unfold clampHi; split <;> omega

theorem neighbourY_bounds (src : Image) (y : Int) (hy : 0 ≤ y) (hy2 : y < src.height)
    (i : Fin 3) : 0 ≤ neighbourY src y i ∧ neighbourY src y i < src.height := by
  fin_cases i
  · show 0 ≤ clampLo y ∧ clampLo y < src.height
    unfold clampLo; split <;> omega
  · exact ⟨hy, hy2⟩
  · show 0 ≤ clampHi y src.height ∧ clampHi y src.height < src.height
    unfold clampHi; split <;> omega

theorem getPixelValue_int_sum (src : Image) (x y bit : Int) (k : Matrix)
    (kz : Fin 3 → Fin 3 → Int) (hk : ∀ i j, k i j = (kz i j : ℚ)) :
    getPixelValue src x y bit k
      = ((∑ i : Fin 3, ∑ j : Fin 3, kz i j * (neighbourSample src x y bit i j : Int))
          % 256).toNat := by
  rw [getPixelValue_eq_sum, ← toUint8_intCast]
  congr 1
  push_cast
  simp only [hk]

theorem neighbourSample_congr (s1 s2 : Image) (c x y : Int)
    (hw : s1.width = s2.width) (hh : s1.height = s2.height) (hb : s1.bpp = s2.bpp)
    (hagree : ∀ p r : Int, 0 ≤ p → p < s1.width → 0 ≤ r → r < s1.height →
      load s1.data (Index p r s1.width c s1.bpp) = load s2.data (Index p r s1.width c s1.bpp))
    (hx : 0 ≤ x) (hx2 : x < s1.width) (hy : 0 ≤ y) (hy2 : y < s1.height) (i j : Fin 3) :
    neighbourSample s1 x y c i j = neighbourSample s2 x y c i j := by
  obtain ⟨p0, p1⟩ := neighbourX_bounds s1 x hx hx2 j
  obtain ⟨q0, q1⟩ := neighbourY_bounds s1 y hy hy2 i
  have ex : neighbourX s2 x j = neighbourX s1 x j := by
    fin_cases j <;> simp [neighbourX, hw]
  have ey : neighbourY s2 y i = neighbourY s1 y i := by
    fin_cases i <;> simp [neighbourY, hh]
  unfold neighbourSample readIndex
  rw [ex, ey, ← hw, ← hb]
  exact hagree _ _ p0 p1 q0 q1

theorem getPixelValue_congr (s1 s2 : Image) (k : Matrix) (c x y : Int)
    (hw : s1.width = s2.width) (hh : s1.height = s2.height) (hb : s1.bpp = s2.bpp)
    (hagree : ∀ p r : Int, 0 ≤ p → p < s1.width → 0 ≤ r → r < s1.height →
      load s1.data (Index p r s1.width c s1.bpp) = load s2.data (Index p r s1.width c s1.bpp))
    (hx : 0 ≤ x) (hx2 : x < s1.width) (hy : 0 ≤ y) (hy2 : y < s1.height) :
    getPixelValue s1 x y c k = getPixelValue s2 x y c k := by
  rw [getPixelValue_eq_sum, getPixelValue_eq_sum]
  congr 1
  refine Finset.sum_congr rfl (fun i _ => Finset.sum_congr rfl (fun j _ => ?_))
  rw [neighbourSample_congr s1 s2 c x y hw hh hb hagree hx hx2 hy hy2 i j]

theorem convolute_load_Index (src dest : Image) (k : Matrix)
    (hw : 1 ≤ src.width) (hh : 1 ≤ src.height) (hb : 1 ≤ src.bpp)
    (hdest : dest.data.length = (src.width * src.height * src.bpp).toNat)
    (x y c : Int) (hx : 0 ≤ x) (hx2 : x < src.width) (hy : 0 ≤ y) (hy2 : y < src.height)
    (hc : 0 ≤ c) (hc2 : c < src.bpp) :
    load (convolute src dest k).data (Index x y src.width c src.bpp)
      = getPixelValue src x y c k := by
  obtain ⟨h0, hlt⟩ := Index_bounds x y src.width src.height c src.bpp hx hx2 hy hy2 hc hc2
  unfold convolute
  rw [convoluteW_load THREAD_COUNT src dest k hw hh hb (by decide) hdest _ h0 hlt]
  exact (outF_Index src k x y c hx hx2 hc hc2).symm

theorem toUint8_natCast_div (S d : Nat) : toUint8 ((S : ℚ) / (d : ℚ)) = S / d % 256 := by
  unfold toUint8
  have hq : (0 : ℚ) ≤ (S : ℚ) / (d : ℚ) := by positivity
  have hnum : 0 ≤ ((S : ℚ) / (d : ℚ)).num := Rat.num_nonneg.2 hq
  rw [Int.tdiv_eq_ediv hnum (Int.ofNat_nonneg _), ← Rat.floor_def, Rat.floor_natCast_div_natCast]
  omega

theorem gauss_sum_eq (src : Image) (x y bit : Int) :
    (∑ i : Fin 3, ∑ j : Fin 3, algorithms 3 i j * (neighbourSample src x y bit i j : ℚ))
      = ((gaussNumerator src x y bit : Nat) : ℚ) / ((16 : Nat) : ℚ) := by
  unfold gaussNumerator
  simp [Fin.sum_univ_three, algorithms, Matrix.vecHead, Matrix.vecTail]
  ring

theorem neighbourSample_const (src : Image) (c x y : Int) (v : Nat)
    (hconst : ∀ p r : Int, 0 ≤ p → p < src.width → 0 ≤ r → r < src.height →
      load src.data (Index p r src.width c src.bpp) = v)
    (hx : 0 ≤ x) (hx2 : x < src.width) (hy : 0 ≤ y) (hy2 : y < src.height) (i j : Fin 3) :
    neighbourSample src x y c i j = v := by
  obtain ⟨p0, p1⟩ := neighbourX_bounds src x hx hx2 j
  obtain ⟨q0, q1⟩ := neighbourY_bounds src y hy hy2 i
  exact hconst _ _ p0 p1 q0 q1

theorem getPixelValue_const (src : Image) (c x y : Int) (v : Nat) (k : Matrix)
    (kz : Fin 3 → Fin 3 → Int) (hk : ∀ i j, k i j = (kz i j : ℚ))
    (hconst : ∀ p r : Int, 0 ≤ p → p < src.width → 0 ≤ r → r < src.height →
      load src.data (Index p r src.width c src.bpp) = v)
    (hx : 0 ≤ x) (hx2 : x < src.width) (hy : 0 ≤ y) (hy2 : y < src.height) :
    getPixelValue src x y c k
      = (((∑ i : Fin 3, ∑ j : Fin 3, kz i j) * (v : Int)) % 256).toNat := by
  rw [getPixelValue_int_sum src x y c k kz hk]
  congr 2
  rw [Finset.sum_mul]
  refine Finset.sum_congr rfl (fun i _ => ?_)
  rw [Finset.sum_mul]
  refine Finset.sum_congr rfl (fun j _ => ?_)
  rw [neighbourSample_const src c x y v hconst hx hx2 hy hy2 i j]

/-! ## The claims -/

/-- C1: after `convolute` returns, the destination sample at
`Index(x,y,width,c,bpp)` is `getPixelValue(src,x,y,c,kernel)` for every pixel
and channel, and the destination sample array is the brute-force single-pass
reference. -/
theorem convolute_refines_reference (src dest : Image) (k : Matrix)
    (hw : 1 ≤ src.width) (hh : 1 ≤ src.height) (hb : 1 ≤ src.bpp)
    (_hsrc : src.data.length = (src.width * src.height * src.bpp).toNat)
    (hdest : dest.data.length = (src.width * src.height * src.bpp).toNat) :
    (∀ x y c : Int, 0 ≤ x → x < src.width → 0 ≤ y → y < src.height → 0 ≤ c → c < src.bpp →
      load (convolute src dest k).data (Index x y src.width c src.bpp)
        = getPixelValue src x y c k) ∧
    (convolute src dest k).data = referenceConvolve src k := by
  refine ⟨?_, convoluteW_data_eq_reference THREAD_COUNT src dest k hw hh hb (by decide) hdest⟩
  intro x y c hx hx2 hy hy2 hc hc2
  obtain ⟨h0, hlt⟩ := Index_bounds x y src.width src.height c src.bpp hx hx2 hy hy2 hc hc2
  unfold convolute
  rw [convoluteW_load THREAD_COUNT src dest k hw hh hb (by decide) hdest _ h0 hlt]
  exact (outF_Index src k x y c hx hx2 hc hc2).symm

/-- Witness for C1: a 2×2 single-channel image and a destination buffer of
the same size, under the SHARPEN kernel. -/
theorem convolute_refines_reference_witness :
    load (convolute ⟨[1, 2, 3, 4], 2, 2, 1⟩ ⟨[9, 9, 9, 9], 2, 2, 1⟩ (algorithms 1)).data
        (Index 1 1 2 0 1)
      = getPixelValue ⟨[1, 2, 3, 4], 2, 2, 1⟩ 1 1 0 (algorithms 1) ∧
    (convolute ⟨[1, 2, 3, 4], 2, 2, 1⟩ ⟨[9, 9, 9, 9], 2, 2, 1⟩ (algorithms 1)).data
      = referenceConvolve ⟨[1, 2, 3, 4], 2, 2, 1⟩ (algorithms 1) :=
  have h := convolute_refines_reference ⟨[1, 2, 3, 4], 2, 2, 1⟩ ⟨[9, 9, 9, 9], 2, 2, 1⟩
    (algorithms 1) (by decide) (by decide) (by decide) (by decide) (by decide)
  ⟨h.1 1 1 0 (by decide) (by decide) (by decide) (by decide) (by decide) (by decide), h.2⟩

/-- C2: for an integer-valued kernel and a pixel inside the image,
`getPixelValue` is the weighted sum over the nine clamped neighbours reduced
modulo 256 (the low 8 bits, also for a negative sum or one above 255). -/
theorem getPixelValue_eq_weightedSum_mod (src : Image) (x y c : Int) (k : Matrix)
    (kz : Fin 3 → Fin 3 → Int) (hk : ∀ i j, k i j = (kz i j : ℚ))
    (_hw : 1 ≤ src.width) (_hh : 1 ≤ src.height)
    (hx : 0 ≤ x) (hx2 : x < src.width) (hy : 0 ≤ y) (hy2 : y < src.height)
    (_hc : 0 ≤ c) (_hc2 : c < src.bpp) :
    getPixelValue src x y c k = (weightedSum src x y c kz % 256).toNat :=
  getPixelValue_int src x y c k kz hk hx hx2 hy hy2

/-- Witness for C2: the centre pixel of the scenario image under the integer
SHARPEN weights. -/
theorem getPixelValue_eq_weightedSum_mod_witness :
    getPixelValue scenarioImage 1 1 0
        (fun i j => ((![![0, -1, 0], ![-1, 5, -1], ![0, -1, 0]] : Fin 3 → Fin 3 → Int) i j : ℚ))
      = (weightedSum scenarioImage 1 1 0 ![![0, -1, 0], ![-1, 5, -1], ![0, -1, 0]] % 256).toNat :=
  getPixelValue_eq_weightedSum_mod scenarioImage 1 1 0 _
    ![![0, -1, 0], ![-1, 5, -1], ![0, -1, 0]] (fun _ _ => rfl)
    (by decide) (by decide) (by decide) (by decide) (by decide) (by decide) (by decide)
    (by decide)

/-- C3: `convolute` with the IDENTITY kernel, `algorithms[5]`, leaves the
destination sample array equal to the source sample array, at every index. -/
theorem convolute_identity (src dest : Image)
    (hw : 1 ≤ src.width) (hh : 1 ≤ src.height) (hb : 1 ≤ src.bpp) (hsrc : src.wf)
    (hdest : dest.data.length = (src.width * src.height * src.bpp).toNat) :
    (convolute src dest (algorithms 5)).data = src.data ∧
    ∀ j : Int, 0 ≤ j → j < src.width * src.height * src.bpp →
      load (convolute src dest (algorithms 5)).data j = load src.data j := by
  have key : ∀ j : Int, 0 ≤ j → j < src.width * src.height * src.bpp →
      load (convolute src dest (algorithms 5)).data j = load src.data j := by
    intro j h0 hlt
    unfold convolute
    rw [convoluteW_load THREAD_COUNT src dest _ hw hh hb (by decide) hdest j h0 hlt]
    unfold outF
    rw [getPixelValue_identity, Index_encode]
    exact Nat.mod_eq_of_lt (load_lt_256 src.data hsrc.2 j)
  refine ⟨?_, key⟩
  have hl : (convolute src dest (algorithms 5)).data.length = dest.data.length :=
    convoluteW_length THREAD_COUNT src dest _
  apply list_ext_load
  · rw [hl, hdest, hsrc.1]
  · intro j h0 hlt
    exact key j h0 (by omega)

/-- Witness for C3: a 2×2 single-channel image of 8-bit samples and a
destination buffer of other content. -/
theorem convolute_identity_witness :
    (convolute ⟨[1, 2, 3, 255], 2, 2, 1⟩ ⟨[9, 9, 9, 9], 2, 2, 1⟩ (algorithms 5)).data
      = [1, 2, 3, 255] :=
  (convolute_identity ⟨[1, 2, 3, 255], 2, 2, 1⟩ ⟨[9, 9, 9, 9], 2, 2, 1⟩
    (by decide) (by decide) (by decide) ⟨by decide, by decide⟩ (by decide)).1

/-- C4: with `chunkSize = (H + W - 1) / W` and worker `i` given the rows
`[i*chunkSize, (i+1)*chunkSize - 1]` cut off at `H - 1`, every row of
`[0, H-1]` is processed by exactly one worker `i` of `[0, W)`. -/
theorem row_partition_exactly_one (src : Image) (k : Matrix) (W : Nat)
    (hH : 1 ≤ src.height) (hW : 1 ≤ W) (r : Int) (h0 : 0 ≤ r) (hr : r < src.height) :
    ∃! i : Nat, i < W ∧ processesRow (mkThreadData src k (chunkSize src.height W) i) r := by
  obtain ⟨hcs, hcov⟩ := chunkSize_bounds src.height W hH hW
  obtain ⟨i, hi, hrow⟩ := workerRow_exists (chunkSize src.height W) src.height W hcs hcov r h0 hr
  refine ⟨i, ⟨hi, hrow⟩, ?_⟩
  rintro i2 ⟨_, hrow2⟩
  exact workerRow_unique (chunkSize src.height W) src.height i2 i r hrow2 hrow

/-- Witness for C4: row 4 of an image of height 5 and the 8 workers of the
program. -/
theorem row_partition_exactly_one_witness :
    ∃! i : Nat, i < 8 ∧
      processesRow (mkThreadData ⟨[0, 0, 0, 0, 0], 1, 5, 1⟩ (algorithms 5) (chunkSize 5 8) i) 4 :=
  row_partition_exactly_one ⟨[0, 0, 0, 0, 0], 1, 5, 1⟩ (algorithms 5) 8 (by decide) (by decide) 4
    (by decide) (by decide)

/-- C5: for the 3×3 single-channel scenario image and the SHARPEN kernel the
output sample at the centre pixel (1,1) is 192, the low 8 bits of
`5*200 - 4*10 = 960`, not the saturated value 255. -/
theorem sharpen_centre_sample :
    getPixelValue scenarioImage 1 1 0 (algorithms 1) = 192 ∧
    getPixelValue scenarioImage 1 1 0 (algorithms 1) = 960 % 256 ∧
    getPixelValue scenarioImage 1 1 0 (algorithms 1) ≠ 255 := by
  have h : getPixelValue scenarioImage 1 1 0 (algorithms 1) = 192 := by
    simp [getPixelValue, scenarioImage, algorithms, load, Index, toUint8, Matrix.vecHead,
      Matrix.vecTail]
    norm_num
    rfl
  rw [h]
  decide

/-- Counterexample to C6 as stated: on the 1×1 image with the single sample 1
the EDGE weights give the output 0, not `k[1][1] * s = 4` modulo 256. -/
theorem one_by_one_centre_weight_fails :
    ¬ ∀ (src : Image) (c : Int) (k : Matrix) (kz : Fin 3 → Fin 3 → Int),
      (∀ i j, k i j = (kz i j : ℚ)) → src.width = 1 → src.height = 1 → 1 ≤ src.bpp →
      0 ≤ c → c < src.bpp → src.wf →
      getPixelValue src 0 0 c k
        = ((kz 1 1 * (load src.data (Index 0 0 src.width c src.bpp) : Int)) % 256).toNat := by
  intro h
  have h1 := h ⟨[1], 1, 1, 1⟩ 0 (algorithms 0) ![![0, -1, 0], ![-1, 4, -1], ![0, -1, 0]]
    (by intro i j; fin_cases i <;> fin_cases j <;> simp [algorithms])
    rfl rfl (by decide) (by decide) (by decide) ⟨by decide, by decide⟩
  have h2 : getPixelValue ⟨[1], 1, 1, 1⟩ 0 0 0 (algorithms 0) = 0 := by
    simp [getPixelValue, algorithms, load, Index, toUint8, Matrix.vecHead, Matrix.vecTail]
    norm_num
  rw [h2] at h1
  revert h1
  decide

/-- C6 as amended: on a 1×1 image all nine neighbour positions are the single
pixel, so for an integer-valued kernel the output sample of channel `c` is the
sum of the nine weights times the source sample, reduced modulo 256. -/
theorem getPixelValue_one_by_one (src : Image) (c : Int) (k : Matrix)
    (kz : Fin 3 → Fin 3 → Int) (hk : ∀ i j, k i j = (kz i j : ℚ))
    (hw : src.width = 1) (hh : src.height = 1) (_hb : 1 ≤ src.bpp)
    (_hc : 0 ≤ c) (_hc2 : c < src.bpp) :
    getPixelValue src 0 0 c k
      = (((kz 0 0 + kz 0 1 + kz 0 2 + kz 1 0 + kz 1 1 + kz 1 2 + kz 2 0 + kz 2 1 + kz 2 2)
          * (load src.data (Index 0 0 src.width c src.bpp) : Int)) % 256).toNat := by
  rw [← toUint8_intCast]
  unfold getPixelValue
  simp only [hw, hh, hk]
  norm_num
  congr 1
  ring

/-- Witness for C6 as amended: the 1×1 image with the sample 7 and the
integer SHARPEN weights, whose sum is 1, give the output 7. -/
theorem getPixelValue_one_by_one_witness :
    getPixelValue ⟨[7], 1, 1, 1⟩ 0 0 0
        (fun i j => ((![![0, -1, 0], ![-1, 5, -1], ![0, -1, 0]] : Fin 3 → Fin 3 → Int) i j : ℚ))
      = 7 := by
  have h := getPixelValue_one_by_one ⟨[7], 1, 1, 1⟩ 0 _
    ![![0, -1, 0], ![-1, 5, -1], ![0, -1, 0]] (fun _ _ => rfl) rfl rfl (by decide)
    (by decide) (by decide)
  rw [h]
  decide

/-- C7: two runs of `convolute` on the same source and kernel give the same
destination sample array whatever the two destination buffers held before;
the output is the reference, a function of the source and kernel only. -/
theorem convolute_deterministic (src d1 d2 : Image) (k : Matrix)
    (hw : 1 ≤ src.width) (hh : 1 ≤ src.height) (hb : 1 ≤ src.bpp)
    (h1 : d1.data.length = (src.width * src.height * src.bpp).toNat)
    (h2 : d2.data.length = (src.width * src.height * src.bpp).toNat) :
    (convolute src d1 k).data = (convolute src d2 k).data ∧
    (convolute src d1 k).data = referenceConvolve src k := by
  have e1 := convoluteW_data_eq_reference THREAD_COUNT src d1 k hw hh hb (by decide) h1
  have e2 := convoluteW_data_eq_reference THREAD_COUNT src d2 k hw hh hb (by decide) h2
  exact ⟨e1.trans e2.symm, e1⟩

/-- Witness for C7: two destination buffers of different content for one 2×2
source image under the EMBOSS kernel. -/
theorem convolute_deterministic_witness :
    (convolute ⟨[1, 2, 3, 4], 2, 2, 1⟩ ⟨[9, 9, 9, 9], 2, 2, 1⟩ (algorithms 4)).data
      = (convolute ⟨[1, 2, 3, 4], 2, 2, 1⟩ ⟨[0, 5, 0, 5], 2, 2, 1⟩ (algorithms 4)).data ∧
    (convolute ⟨[1, 2, 3, 4], 2, 2, 1⟩ ⟨[9, 9, 9, 9], 2, 2, 1⟩ (algorithms 4)).data
      = referenceConvolve ⟨[1, 2, 3, 4], 2, 2, 1⟩ (algorithms 4) :=
  convolute_deterministic ⟨[1, 2, 3, 4], 2, 2, 1⟩ ⟨[9, 9, 9, 9], 2, 2, 1⟩
    ⟨[0, 5, 0, 5], 2, 2, 1⟩ (algorithms 4) (by decide) (by decide) (by decide) (by decide)
    (by decide)

/-- C8: the destination has the width, height and channel count of the
source: `main` copies the three fields and allocates `width*bpp*height`
samples, and `applyFilter` and `convolute` change destination samples only,
never a dimension field or the number of samples. -/
theorem dimensions_preserved (src dest : Image) (fresh : Nat → Nat) (type : KernelTypes)
    (k : Matrix) (data : thread_data) :
    ((mainDest src fresh).width = src.width ∧ (mainDest src fresh).height = src.height ∧
      (mainDest src fresh).bpp = src.bpp ∧
      (mainDest src fresh).data.length = (src.width * src.bpp * src.height).toNat) ∧
    ((applyFilter data dest).width = dest.width ∧ (applyFilter data dest).height = dest.height ∧
      (applyFilter data dest).bpp = dest.bpp ∧
      (applyFilter data dest).data.length = dest.data.length) ∧
    ((convolute src dest k).width = dest.width ∧ (convolute src dest k).height = dest.height ∧
      (convolute src dest k).bpp = dest.bpp ∧
      (convolute src dest k).data.length = dest.data.length) ∧
    ((mainConvolute src fresh type).width = src.width ∧
      (mainConvolute src fresh type).height = src.height ∧
      (mainConvolute src fresh type).bpp = src.bpp ∧
      (mainConvolute src fresh type).data.length
        = (src.width * src.bpp * src.height).toNat) := by
  have hm : (mainDest src fresh).data.length = (src.width * src.bpp * src.height).toNat := by
    simp [mainDest]
  have hc : ∀ (d : Image) (m : Matrix), (convolute src d m).width = d.width ∧
      (convolute src d m).height = d.height ∧ (convolute src d m).bpp = d.bpp ∧
      (convolute src d m).data.length = d.data.length := by
    intro d m
    obtain ⟨a, b, c⟩ := runWorkers_dims src m (chunkSize src.height THREAD_COUNT) THREAD_COUNT d
    exact ⟨a, b, c, convoluteW_length THREAD_COUNT src d m⟩
  refine ⟨⟨rfl, rfl, rfl, hm⟩, ⟨rfl, rfl, rfl, applyFilter_length data dest⟩, hc dest k, ?_⟩
  · obtain ⟨a, b, c, d⟩ := hc (mainDest src fresh) (algorithms type.toFin)
    exact ⟨a, b, c, d.trans hm⟩

/-- C9: `GetKernelType` returns EDGE, SHARPEN, BLUR, GAUSE_BLUR and EMBOSS for
exactly the names "edge", "sharpen", "blur", "gauss" and "emboss", and
IDENTITY for every other string, the empty string, "identity" and names in
another case included. -/
theorem GetKernelType_total :
    (∀ s, GetKernelType s = KernelTypes.EDGE ↔ s = "edge") ∧
    (∀ s, GetKernelType s = KernelTypes.SHARPEN ↔ s = "sharpen") ∧
    (∀ s, GetKernelType s = KernelTypes.BLUR ↔ s = "blur") ∧
    (∀ s, GetKernelType s = KernelTypes.GAUSE_BLUR ↔ s = "gauss") ∧
    (∀ s, GetKernelType s = KernelTypes.EMBOSS ↔ s = "emboss") ∧
    (∀ s, GetKernelType s = KernelTypes.IDENTITY ↔
      (s ≠ "edge" ∧ s ≠ "sharpen" ∧ s ≠ "blur" ∧ s ≠ "gauss" ∧ s ≠ "emboss")) ∧
    GetKernelType "" = KernelTypes.IDENTITY ∧
    GetKernelType "identity" = KernelTypes.IDENTITY ∧
    GetKernelType "EDGE" = KernelTypes.IDENTITY ∧
    GetKernelType "Gauss" = KernelTypes.IDENTITY := by
  refine ⟨?_, ?_, ?_, ?_, ?_, ?_, by decide, by decide, by decide, by decide⟩ <;>
  · intro s
    unfold GetKernelType
    split_ifs <;> simp_all

/-- C10: `applyFilter` changes only destination samples of the rows
`[start, min(end, height-1)]`: a sample of any other row keeps its value, and
when `start >= height` the destination is left as it was. -/
theorem applyFilter_frame (data : thread_data) (dest : Image)
    (_hstart : 0 ≤ data.rowStart)
    (_hw : 1 ≤ data.srcImage.width) (_hb : 1 ≤ data.srcImage.bpp)
    (_hdw : dest.width = data.srcImage.width) (_hdh : dest.height = data.srcImage.height)
    (_hdb : dest.bpp = data.srcImage.bpp) :
    (∀ x y c : Int, 0 ≤ x → x < data.srcImage.width → 0 ≤ c → c < data.srcImage.bpp →
      ¬ (data.rowStart ≤ y ∧ y ≤ min data.rowEnd (data.srcImage.height - 1)) →
      load (applyFilter data dest).data (Index x y data.srcImage.width c data.srcImage.bpp)
        = load dest.data (Index x y data.srcImage.width c data.srcImage.bpp)) ∧
    (data.srcImage.height ≤ data.rowStart → applyFilter data dest = dest) := by
  constructor
  · intro x y c hx hx2 hc hc2 hy
    have U := rowLoop_Upd (outF data.srcImage data.algorithm) data.srcImage data.algorithm
      data.rowEnd data.rowStart dest.data
      (fun r p b _ _ _ hp hp2 hb hb2 => outF_Index data.srcImage data.algorithm p r b hp hp2 hb hb2)
    refine (U.2 _).2 (not_rowsRegion data.srcImage data.rowStart data.rowEnd x y c hx hx2 hc hc2 ?_)
    intro h
    apply hy
    refine ⟨h.1, ?_⟩
    have := h.2.1
    have := h.2.2
    omega
  · intro h
    unfold applyFilter
    rw [rowLoop, dif_neg (by omega)]

/-- Witness for C10: the worker for the single row 1 of an image of width 2
and height 3 leaves the sample of pixel (1,2) alone, and the worker whose
range starts at row 3 leaves the whole destination alone. -/
theorem applyFilter_frame_witness :
    load (applyFilter ⟨1, 1, 1, ⟨[1, 2, 3, 4, 5, 6], 2, 3, 1⟩, algorithms 0⟩
        ⟨[9, 8, 7, 6, 5, 4], 2, 3, 1⟩).data (Index 1 2 2 0 1)
      = load [9, 8, 7, 6, 5, 4] (Index 1 2 2 0 1) ∧
    applyFilter ⟨3, 3, 3, ⟨[1, 2, 3, 4, 5, 6], 2, 3, 1⟩, algorithms 0⟩
        ⟨[9, 8, 7, 6, 5, 4], 2, 3, 1⟩ = ⟨[9, 8, 7, 6, 5, 4], 2, 3, 1⟩ :=
  ⟨(applyFilter_frame ⟨1, 1, 1, ⟨[1, 2, 3, 4, 5, 6], 2, 3, 1⟩, algorithms 0⟩
      ⟨[9, 8, 7, 6, 5, 4], 2, 3, 1⟩ (by decide) (by decide) (by decide) rfl rfl rfl).1
      1 2 0 (by decide) (by decide) (by decide) (by decide) (by decide),
    (applyFilter_frame ⟨3, 3, 3, ⟨[1, 2, 3, 4, 5, 6], 2, 3, 1⟩, algorithms 0⟩
      ⟨[9, 8, 7, 6, 5, 4], 2, 3, 1⟩ (by decide) (by decide) (by decide) rfl rfl rfl).2
      (by decide)⟩

/-- C11: the write order across workers is irrelevant: running the 8 workers
one after the other in any permutation of the indices 0..7 gives the
destination that `convolute` gives, and any two workers commute. -/
theorem workers_order_irrelevant (src dest : Image) (k : Matrix)
    (_hw : 1 ≤ src.width) (_hh : 1 ≤ src.height) (_hb : 1 ≤ src.bpp) :
    (∀ order : List Nat, order.Perm (List.range THREAD_COUNT) →
      runOrder src k (chunkSize src.height THREAD_COUNT) order dest = convolute src dest k) ∧
    (∀ (i j : Nat) (d : Image),
      applyFilter (mkThreadData src k (chunkSize src.height THREAD_COUNT) i)
          (applyFilter (mkThreadData src k (chunkSize src.height THREAD_COUNT) j) d)
        = applyFilter (mkThreadData src k (chunkSize src.height THREAD_COUNT) j)
          (applyFilter (mkThreadData src k (chunkSize src.height THREAD_COUNT) i) d)) := by
  constructor
  · intro order p
    exact runOrder_perm src k _ order (List.range THREAD_COUNT) dest p
  · intro i j d
    exact applyFilter_comm src k _ i j d

/-- Witness for C11: the 8 workers of a 2×3 single-channel image run in the
reverse of the creation order. -/
theorem workers_order_irrelevant_witness :
    runOrder ⟨[1, 2, 3, 4, 5, 6], 2, 3, 1⟩ (algorithms 1) (chunkSize 3 THREAD_COUNT)
        [7, 6, 5, 4, 3, 2, 1, 0] ⟨[9, 9, 9, 9, 9, 9], 2, 3, 1⟩
      = convolute ⟨[1, 2, 3, 4, 5, 6], 2, 3, 1⟩ ⟨[9, 9, 9, 9, 9, 9], 2, 3, 1⟩ (algorithms 1) :=
  (workers_order_irrelevant ⟨[1, 2, 3, 4, 5, 6], 2, 3, 1⟩ ⟨[9, 9, 9, 9, 9, 9], 2, 3, 1⟩
    (algorithms 1) (by decide) (by decide) (by decide)).1 [7, 6, 5, 4, 3, 2, 1, 0] (by decide)

/-- C13: for a height `H` with `0 <= H <= INT_MAX - 7` the sum `H + 7` is an
`int` value, the chunk size `(H + 7) / 8` of `convolute` is `ceil(H / 8)`,
and worker `i` of `[0, 8)` gets `rowStart = i*chunkSize` and
`rowEnd = (i+1)*chunkSize - 1`, both `int` values. -/
theorem chunkSize_is_ceil (src : Image) (k : Matrix)
    (h0 : 0 ≤ src.height) (hmax : src.height ≤ INT_MAX - 7) :
    (0 ≤ src.height + ((THREAD_COUNT : Int) - 1) ∧
      src.height + ((THREAD_COUNT : Int) - 1) ≤ INT_MAX) ∧
    chunkSize src.height THREAD_COUNT = ⌈(src.height : ℚ) / 8⌉ ∧
    ∀ i : Nat, i < THREAD_COUNT →
      (mkThreadData src k (chunkSize src.height THREAD_COUNT) i).rowStart
        = (i : Int) * chunkSize src.height THREAD_COUNT ∧
      (mkThreadData src k (chunkSize src.height THREAD_COUNT) i).rowEnd
        = ((i : Int) + 1) * chunkSize src.height THREAD_COUNT - 1 ∧
      0 ≤ (mkThreadData src k (chunkSize src.height THREAD_COUNT) i).rowStart ∧
      (mkThreadData src k (chunkSize src.height THREAD_COUNT) i).rowStart ≤ INT_MAX ∧
      -1 ≤ (mkThreadData src k (chunkSize src.height THREAD_COUNT) i).rowEnd ∧
      (mkThreadData src k (chunkSize src.height THREAD_COUNT) i).rowEnd ≤ INT_MAX := by
  have hcs := chunkSize_eight src.height h0
  have hT : (THREAD_COUNT : Int) = 8 := rfl
  unfold INT_MAX at hmax ⊢
  refine ⟨by omega, ?_, ?_⟩
  · rw [hcs]
    symm
    rw [Int.ceil_eq_iff]
    have h1 : ((src.height + 7) / 8 - 1) * 8 < src.height := by omega
    have h2 : src.height ≤ (src.height + 7) / 8 * 8 := by omega
    have h1q : ((((src.height + 7) / 8 : Int) : ℚ) - 1) * 8 < (src.height : ℚ) := by
      exact_mod_cast h1
    have h2q : (src.height : ℚ) ≤ (((src.height + 7) / 8 : Int) : ℚ) * 8 := by
      exact_mod_cast h2
    constructor
    · rw [lt_div_iff₀ (by norm_num)]
      exact h1q
    · rw [div_le_iff₀ (by norm_num)]
      exact h2q
  · intro i hi
    have hi8 : (i : Int) < 8 := by
      have : i < 8 := hi
      omega
    have e1 : (mkThreadData src k (chunkSize src.height THREAD_COUNT) i).rowStart
        = (i : Int) * chunkSize src.height THREAD_COUNT := by
      show chunkSize src.height THREAD_COUNT * (i : Int) = _
      ring
    have e2 : (mkThreadData src k (chunkSize src.height THREAD_COUNT) i).rowEnd
        = ((i : Int) + 1) * chunkSize src.height THREAD_COUNT - 1 := by
      show chunkSize src.height THREAD_COUNT * (i : Int)
        + chunkSize src.height THREAD_COUNT - 1 = _
      ring
    rw [e1, e2, hcs]
    have hc0 : 0 ≤ (src.height + 7) / 8 := by omega
    have hc8 : (src.height + 7) / 8 * 8 ≤ src.height + 7 := by omega
    have hm1 : (i : Int) * ((src.height + 7) / 8) ≤ 7 * ((src.height + 7) / 8) :=
      mul_le_mul_of_nonneg_right (by omega) hc0
    have hm0 : 0 ≤ (i : Int) * ((src.height + 7) / 8) := mul_nonneg (by omega) hc0
    have e3 : ((i : Int) + 1) * ((src.height + 7) / 8)
        = (i : Int) * ((src.height + 7) / 8) + (src.height + 7) / 8 := by ring
    refine ⟨rfl, rfl, hm0, by omega, by omega, by omega⟩

/-- Witness for C13: the image height 17, for which the chunk size is 3. -/
theorem chunkSize_is_ceil_witness :
    chunkSize 17 THREAD_COUNT = ⌈((17 : Int) : ℚ) / 8⌉ ∧
    (mkThreadData ⟨List.replicate 17 0, 1, 17, 1⟩ (algorithms 5) (chunkSize 17 THREAD_COUNT) 7).rowStart
      = ((7 : Nat) : Int) * chunkSize 17 THREAD_COUNT :=
  have h := chunkSize_is_ceil ⟨List.replicate 17 0, 1, 17, 1⟩ (algorithms 5) (by decide) (by decide)
  ⟨h.2.1, (h.2.2 7 (by decide)).1⟩

/-- Counterexample to C14 as stated: for an image of height 1 the chunk size
is 1, so worker 1, which is not the final worker, starts at row 1, beyond
the last row 0, and processes no row. -/
theorem nonfinal_worker_empty :
    ¬ ∀ (src : Image) (k : Matrix) (i : Nat), 1 ≤ src.height → i < 7 →
      (mkThreadData src k (chunkSize src.height THREAD_COUNT) i).rowStart ≤ src.height - 1 ∧
      workerRows (mkThreadData src k (chunkSize src.height THREAD_COUNT) i) ≠ [] := by
  intro h
  have h1 := (h ⟨[0], 1, 1, 1⟩ (algorithms 5) 1 (by decide) (by decide)).1
  revert h1
  decide

/-- C14 as amended: for a height `H >= 1` worker `i` processes no row exactly
when `i*chunkSize >= H`; worker 0 always processes a row, the workers without
a row form a final run (after a worker without a row every later worker has
none), there is one only when 8 does not divide `H`, and when 8 divides `H`
all 8 workers process exactly `H/8` rows. -/
theorem empty_ranges_final_run (src : Image) (k : Matrix) (hh : 1 ≤ src.height) :
    (∀ i : Nat, workerRows (mkThreadData src k (chunkSize src.height THREAD_COUNT) i) = [] ↔
      src.height ≤ (i : Int) * chunkSize src.height THREAD_COUNT) ∧
    workerRows (mkThreadData src k (chunkSize src.height THREAD_COUNT) 0) ≠ [] ∧
    (∀ i j : Nat, i ≤ j →
      workerRows (mkThreadData src k (chunkSize src.height THREAD_COUNT) i) = [] →
      workerRows (mkThreadData src k (chunkSize src.height THREAD_COUNT) j) = []) ∧
    (∀ i : Nat, i < THREAD_COUNT →
      workerRows (mkThreadData src k (chunkSize src.height THREAD_COUNT) i) = [] →
      ¬ (8 : Int) ∣ src.height) ∧
    ((8 : Int) ∣ src.height → ∀ i : Nat, i < THREAD_COUNT →
      ((workerRows (mkThreadData src k (chunkSize src.height THREAD_COUNT) i)).length : Int)
        = src.height / 8) := by
  obtain ⟨hcs, _⟩ := chunkSize_bounds src.height THREAD_COUNT hh (by decide)
  have hc8 := chunkSize_eight src.height (by omega)
  have hnil : ∀ i : Nat,
      workerRows (mkThreadData src k (chunkSize src.height THREAD_COUNT) i) = [] ↔
        src.height ≤ (i : Int) * chunkSize src.height THREAD_COUNT := by
    intro i
    rw [workerRows_eq_nil src k _ i hcs, mul_comm]
  have hdiv : (8 : Int) ∣ src.height → ∀ i : Nat, i < THREAD_COUNT →
      ((i : Int) + 1) * chunkSize src.height THREAD_COUNT ≤ src.height := by
    intro hd i hi
    have hi8 : (i : Int) + 1 ≤ 8 := by
      have : i < 8 := hi
      omega
    have e : 8 * chunkSize src.height THREAD_COUNT = src.height := by
      rw [hc8]; omega
    have := mul_le_mul_of_nonneg_right hi8 (by omega : (0 : Int) ≤ chunkSize src.height THREAD_COUNT)
    omega
  refine ⟨hnil, ?_, ?_, ?_, ?_⟩
  · rw [Ne, hnil]
    simp only [Nat.cast_zero, zero_mul]
    omega
  · intro i j hij hi
    rw [hnil] at hi ⊢
    have : (i : Int) * chunkSize src.height THREAD_COUNT
        ≤ (j : Int) * chunkSize src.height THREAD_COUNT :=
      mul_le_mul_of_nonneg_right (by omega) (by omega)
    omega
  · intro i hi hnl hd
    rw [hnil] at hnl
    have := hdiv hd i hi
    have e : ((i : Int) + 1) * chunkSize src.height THREAD_COUNT
        = (i : Int) * chunkSize src.height THREAD_COUNT + chunkSize src.height THREAD_COUNT := by
      ring
    omega
  · intro hd i hi
    have h1 := hdiv hd i hi
    have e : ((i : Int) + 1) * chunkSize src.height THREAD_COUNT
        = chunkSize src.height THREAD_COUNT * (i : Int) + chunkSize src.height THREAD_COUNT := by
      ring
    have hl := length_rowsVisited src
      (chunkSize src.height THREAD_COUNT * (i : Int) + chunkSize src.height THREAD_COUNT - 1)
      (chunkSize src.height THREAD_COUNT * (i : Int))
    have hw : workerRows (mkThreadData src k (chunkSize src.height THREAD_COUNT) i)
        = rowsVisited src
          (chunkSize src.height THREAD_COUNT * (i : Int) + chunkSize src.height THREAD_COUNT - 1)
          (chunkSize src.height THREAD_COUNT * (i : Int)) := rfl
    rw [hw, hl]
    have hq : chunkSize src.height THREAD_COUNT = src.height / 8 := by
      rw [hc8]; omega
    omega

/-- Witness for C14 as amended: an image of height 16, which 8 divides, where
each of the 8 workers processes 2 rows. -/
theorem empty_ranges_final_run_witness :
    ((workerRows (mkThreadData ⟨List.replicate 16 0, 1, 16, 1⟩ (algorithms 5)
        (chunkSize 16 THREAD_COUNT) 7)).length : Int) = 16 / 8 :=
  (empty_ranges_final_run ⟨List.replicate 16 0, 1, 16, 1⟩ (algorithms 5) (by decide)).2.2.2.2
    (by decide) 7 (by decide)

/-- Counterexample to C15 as stated: on the 2×2 image with the samples
`[0, 1, 0, 0]` and the kernel whose only weight is `k[0][2] = 1`, the corner
output is 1, the sample at (1,0), not 0, the sample at (0,0). -/
theorem corner_reads_not_all_origin :
    ¬ ∀ (src : Image) (c : Int) (k : Matrix) (kz : Fin 3 → Fin 3 → Int),
      (∀ i j, k i j = (kz i j : ℚ)) → 2 ≤ src.width → 2 ≤ src.height →
      0 ≤ c → c < src.bpp →
      getPixelValue src 0 0 c k
        = (((kz 0 0 + kz 0 1 + kz 0 2 + kz 1 0 + kz 1 1 + kz 2 0)
              * (load src.data (Index 0 0 src.width c src.bpp) : Int)
            + kz 1 2 * (load src.data (Index 1 0 src.width c src.bpp) : Int)
            + kz 2 1 * (load src.data (Index 0 1 src.width c src.bpp) : Int)
            + kz 2 2 * (load src.data (Index 1 1 src.width c src.bpp) : Int)) % 256).toNat := by
  intro h
  have h1 := h ⟨[0, 1, 0, 0], 2, 2, 1⟩ 0
    (fun i j => ((![![0, 0, 1], ![0, 0, 0], ![0, 0, 0]] : Fin 3 → Fin 3 → Int) i j : ℚ))
    ![![0, 0, 1], ![0, 0, 0], ![0, 0, 0]] (fun _ _ => rfl)
    (by decide) (by decide) (by decide) (by decide)
  have h2 : getPixelValue ⟨[0, 1, 0, 0], 2, 2, 1⟩ 0 0 0
      (fun i j => ((![![0, 0, 1], ![0, 0, 0], ![0, 0, 0]] : Fin 3 → Fin 3 → Int) i j : ℚ))
      = 1 := by
    simp [getPixelValue, load, Index, toUint8, Matrix.vecHead, Matrix.vecTail]
  rw [h2] at h1
  revert h1
  decide

/-- C15 as amended: for width and height at least 2 the corner pixel (0,0)
reads the neighbour positions (-1,-1), (0,-1), (-1,0) at (0,0), the position
(1,-1) at (1,0) and the position (-1,1) at (0,1), each coordinate being
clamped on its own, so for an integer-valued kernel the output is
`(k00+k01+k10+k11)*src(0,0) + (k02+k12)*src(1,0) + (k20+k21)*src(0,1) +
k22*src(1,1)` modulo 256. -/
theorem getPixelValue_corner (src : Image) (c : Int) (k : Matrix)
    (kz : Fin 3 → Fin 3 → Int) (hk : ∀ i j, k i j = (kz i j : ℚ))
    (hw : 2 ≤ src.width) (hh : 2 ≤ src.height) :
    getPixelValue src 0 0 c k
      = (((kz 0 0 + kz 0 1 + kz 1 0 + kz 1 1)
            * (load src.data (Index 0 0 src.width c src.bpp) : Int)
          + (kz 0 2 + kz 1 2) * (load src.data (Index 1 0 src.width c src.bpp) : Int)
          + (kz 2 0 + kz 2 1) * (load src.data (Index 0 1 src.width c src.bpp) : Int)
          + kz 2 2 * (load src.data (Index 1 1 src.width c src.bpp) : Int)) % 256).toNat ∧
    readIndex src 0 0 c 0 0 = Index 0 0 src.width c src.bpp ∧
    readIndex src 0 0 c 0 1 = Index 0 0 src.width c src.bpp ∧
    readIndex src 0 0 c 1 0 = Index 0 0 src.width c src.bpp ∧
    readIndex src 0 0 c 0 2 = Index 1 0 src.width c src.bpp ∧
    readIndex src 0 0 c 2 0 = Index 0 1 src.width c src.bpp := by
  have hx : clampHi 0 src.width = 1 := by unfold clampHi; split <;> omega
  have hy : clampHi 0 src.height = 1 := by unfold clampHi; split <;> omega
  have hl : clampLo 0 = 0 := by decide
  refine ⟨?_, ?_, ?_, ?_, ?_, ?_⟩
  · rw [getPixelValue_int_sum src 0 0 c k kz hk]
    simp only [Fin.sum_univ_three, neighbourSample, readIndex, neighbourX, neighbourY, hx, hy, hl]
    congr 2
    ring
  all_goals simp only [readIndex, neighbourX, neighbourY, hx, hy, hl]

/-- Witness for C15 as amended: the corner of the scenario image under the
integer EMBOSS weights. -/
theorem getPixelValue_corner_witness :
    readIndex scenarioImage 0 0 0 0 2 = Index 1 0 3 0 1 ∧
    readIndex scenarioImage 0 0 0 2 0 = Index 0 1 3 0 1 :=
  have h := getPixelValue_corner scenarioImage 0
    (fun i j => ((![![-2, -1, 0], ![-1, 1, 1], ![0, 1, 2]] : Fin 3 → Fin 3 → Int) i j : ℚ))
    ![![-2, -1, 0], ![-1, 1, 1], ![0, 1, 2]] (fun _ _ => rfl) (by decide) (by decide)
  ⟨h.2.2.2.2.1, h.2.2.2.2.2⟩

/-- C17: channels do not interfere: when two source images of equal width,
height and bpp agree on channel `c` at every pixel, `getPixelValue` gives the
same value for channel `c` at every pixel, and the outputs of `convolute`
agree on channel `c`, whatever the other channels hold. -/
theorem channels_do_not_interfere (s1 s2 d1 d2 : Image) (k : Matrix) (c : Int)
    (hw : 1 ≤ s1.width) (hh : 1 ≤ s1.height) (hb : 1 ≤ s1.bpp)
    (ew : s1.width = s2.width) (eh : s1.height = s2.height) (eb : s1.bpp = s2.bpp)
    (hc : 0 ≤ c) (hc2 : c < s1.bpp)
    (hd1 : d1.data.length = (s1.width * s1.height * s1.bpp).toNat)
    (hd2 : d2.data.length = (s1.width * s1.height * s1.bpp).toNat)
    (hagree : ∀ p r : Int, 0 ≤ p → p < s1.width → 0 ≤ r → r < s1.height →
      load s1.data (Index p r s1.width c s1.bpp) = load s2.data (Index p r s1.width c s1.bpp)) :
    ∀ x y : Int, 0 ≤ x → x < s1.width → 0 ≤ y → y < s1.height →
      getPixelValue s1 x y c k = getPixelValue s2 x y c k ∧
      load (convolute s1 d1 k).data (Index x y s1.width c s1.bpp)
        = load (convolute s2 d2 k).data (Index x y s1.width c s1.bpp) := by
  intro x y hx hx2 hy hy2
  have hg := getPixelValue_congr s1 s2 k c x y ew eh eb hagree hx hx2 hy hy2
  refine ⟨hg, ?_⟩
  rw [convolute_load_Index s1 d1 k hw hh hb hd1 x y c hx hx2 hy hy2 hc hc2]
  have h2 := convolute_load_Index s2 d2 k (by omega) (by omega) (by omega)
    (by rw [← ew, ← eh, ← eb]; exact hd2) x y c hx (by omega) hy (by omega) hc (by omega)
  rw [← ew, ← eb] at h2
  rw [h2, hg]

/-- Witness for C17: two 1×2 images of two channels that agree on channel 0
and differ on channel 1. -/
theorem channels_do_not_interfere_witness :
    getPixelValue ⟨[5, 1, 7, 2], 1, 2, 2⟩ 0 1 0 (algorithms 4)
        = getPixelValue ⟨[5, 200, 7, 100], 1, 2, 2⟩ 0 1 0 (algorithms 4) ∧
    load (convolute ⟨[5, 1, 7, 2], 1, 2, 2⟩ ⟨[0, 0, 0, 0], 1, 2, 2⟩ (algorithms 4)).data
        (Index 0 1 1 0 2)
      = load (convolute ⟨[5, 200, 7, 100], 1, 2, 2⟩ ⟨[9, 9, 9, 9], 1, 2, 2⟩ (algorithms 4)).data
        (Index 0 1 1 0 2) :=
  channels_do_not_interfere ⟨[5, 1, 7, 2], 1, 2, 2⟩ ⟨[5, 200, 7, 100], 1, 2, 2⟩
    ⟨[0, 0, 0, 0], 1, 2, 2⟩ ⟨[9, 9, 9, 9], 1, 2, 2⟩ (algorithms 4) 0
    (by decide) (by decide) (by decide) rfl rfl rfl (by decide) (by decide) (by decide)
    (by decide)
    (by
      intro p r hp hp2 hr hr2
      have hp0 : p = 0 := by
        have : p < 1 := hp2
        omega
      have hr01 : r = 0 ∨ r = 1 := by
        have : r < 2 := hr2
        omega
      subst hp0
      rcases hr01 with rfl | rfl <;> decide)
    0 1 (by decide) (by decide) (by decide) (by decide)

/-- C18: on an image whose samples of channel `c` all equal `v`, the output of
channel `c` at every pixel is the sum of the nine weights times `v` modulo
256 for an integer-valued kernel; for `v` in `[0,255]` it is `v` under the
SHARPEN, EMBOSS and IDENTITY kernels and 0 under the EDGE kernel. -/
theorem constant_channel_output (src : Image) (c x y : Int) (v : Nat) (k : Matrix)
    (kz : Fin 3 → Fin 3 → Int) (hk : ∀ i j, k i j = (kz i j : ℚ))
    (_hw : 1 ≤ src.width) (_hh : 1 ≤ src.height) (hv : v ≤ 255)
    (hconst : ∀ p r : Int, 0 ≤ p → p < src.width → 0 ≤ r → r < src.height →
      load src.data (Index p r src.width c src.bpp) = v)
    (hx : 0 ≤ x) (hx2 : x < src.width) (hy : 0 ≤ y) (hy2 : y < src.height) :
    getPixelValue src x y c k
      = (((∑ i : Fin 3, ∑ j : Fin 3, kz i j) * (v : Int)) % 256).toNat ∧
    getPixelValue src x y c (algorithms 1) = v ∧
    getPixelValue src x y c (algorithms 4) = v ∧
    getPixelValue src x y c (algorithms 5) = v ∧
    getPixelValue src x y c (algorithms 0) = 0 := by
  refine ⟨getPixelValue_const src c x y v k kz hk hconst hx hx2 hy hy2, ?_, ?_, ?_, ?_⟩
  · rw [getPixelValue_const src c x y v (algorithms 1) ![![0, -1, 0], ![-1, 5, -1], ![0, -1, 0]]
      (by intro i j; fin_cases i <;> fin_cases j <;>
        simp [algorithms, Matrix.vecHead, Matrix.vecTail]) hconst hx hx2 hy hy2]
    have : (∑ i : Fin 3, ∑ j : Fin 3,
        (![![0, -1, 0], ![-1, 5, -1], ![0, -1, 0]] : Fin 3 → Fin 3 → Int) i j) = 1 := by decide
    rw [this]
    omega
  · rw [getPixelValue_const src c x y v (algorithms 4) ![![-2, -1, 0], ![-1, 1, 1], ![0, 1, 2]]
      (by intro i j; fin_cases i <;> fin_cases j <;>
        simp [algorithms, Matrix.vecHead, Matrix.vecTail]) hconst hx hx2 hy hy2]
    have : (∑ i : Fin 3, ∑ j : Fin 3,
        (![![-2, -1, 0], ![-1, 1, 1], ![0, 1, 2]] : Fin 3 → Fin 3 → Int) i j) = 1 := by decide
    rw [this]
    omega
  · rw [getPixelValue_const src c x y v (algorithms 5) ![![0, 0, 0], ![0, 1, 0], ![0, 0, 0]]
      (by intro i j; fin_cases i <;> fin_cases j <;>
        simp [algorithms, Matrix.vecHead, Matrix.vecTail]) hconst hx hx2 hy hy2]
    have : (∑ i : Fin 3, ∑ j : Fin 3,
        (![![0, 0, 0], ![0, 1, 0], ![0, 0, 0]] : Fin 3 → Fin 3 → Int) i j) = 1 := by decide
    rw [this]
    omega
  · rw [getPixelValue_const src c x y v (algorithms 0) ![![0, -1, 0], ![-1, 4, -1], ![0, -1, 0]]
      (by intro i j; fin_cases i <;> fin_cases j <;>
        simp [algorithms, Matrix.vecHead, Matrix.vecTail]) hconst hx hx2 hy hy2]
    have : (∑ i : Fin 3, ∑ j : Fin 3,
        (![![0, -1, 0], ![-1, 4, -1], ![0, -1, 0]] : Fin 3 → Fin 3 → Int) i j) = 0 := by decide
    rw [this]
    omega

/-- Witness for C18: the 2×1 single-channel image whose two samples are 200,
at the edge pixel (1,0), with the integer EDGE weights. -/
theorem constant_channel_output_witness :
    getPixelValue ⟨[200, 200], 2, 1, 1⟩ 1 0 0 (algorithms 1) = 200 ∧
    getPixelValue ⟨[200, 200], 2, 1, 1⟩ 1 0 0 (algorithms 0) = 0 :=
  have h := constant_channel_output ⟨[200, 200], 2, 1, 1⟩ 0 1 0 200
    (fun i j => ((![![0, -1, 0], ![-1, 4, -1], ![0, -1, 0]] : Fin 3 → Fin 3 → Int) i j : ℚ))
    ![![0, -1, 0], ![-1, 4, -1], ![0, -1, 0]] (fun _ _ => rfl)
    (by decide) (by decide) (by decide)
    (by
      intro p r hp hp2 hr hr2
      have hr0 : r = 0 := by
        have : r < 1 := hr2
        omega
      have hp01 : p = 0 ∨ p = 1 := by
        have : p < 2 := hp2
        omega
      subst hr0
      rcases hp01 with rfl | rfl <;> decide)
    (by decide) (by decide) (by decide) (by decide)
  ⟨h.2.1, h.2.2.2.2⟩

/-- C19: for the gaussian-blur kernel `getPixelValue` returns
`floor((a + 2b + c + 2d + 4e + 2f + g + 2h + i) / 16)` over the nine samples
it reads; the value lies between any lower and any upper bound of the nine
samples, hence between their minimum and maximum, and the weighted sum stays
in `[0, 255]`, so the cast does not wrap. -/
theorem gaussian_blur_floor (src : Image) (x y c : Int)
    (_hw : 1 ≤ src.width) (_hh : 1 ≤ src.height)
    (_hx : 0 ≤ x) (_hx2 : x < src.width) (_hy : 0 ≤ y) (_hy2 : y < src.height)
    (hs : ∀ s ∈ src.data, s < 256) :
    getPixelValue src x y c (algorithms 3) = gaussNumerator src x y c / 16 ∧
    (∀ lo hi : Nat,
      (∀ i j : Fin 3, lo ≤ neighbourSample src x y c i j ∧ neighbourSample src x y c i j ≤ hi) →
      lo ≤ getPixelValue src x y c (algorithms 3) ∧
      getPixelValue src x y c (algorithms 3) ≤ hi) ∧
    ((∑ i : Fin 3, ∑ j : Fin 3, algorithms 3 i j * (neighbourSample src x y c i j : ℚ))
        = (gaussNumerator src x y c : ℚ) / 16 ∧
      0 ≤ (gaussNumerator src x y c : ℚ) / 16 ∧
      (gaussNumerator src x y c : ℚ) / 16 ≤ 255) := by
  have hn : ∀ i j : Fin 3, neighbourSample src x y c i j < 256 :=
    fun i j => load_lt_256 src.data hs _
  have hN : gaussNumerator src x y c ≤ 16 * 255 := by
    unfold gaussNumerator
    have := hn 0 0; have := hn 0 1; have := hn 0 2
    have := hn 1 0; have := hn 1 1; have := hn 1 2
    have := hn 2 0; have := hn 2 1; have := hn 2 2
    omega
  have hsum := gauss_sum_eq src x y c
  have hg : getPixelValue src x y c (algorithms 3) = gaussNumerator src x y c / 16 := by
    rw [getPixelValue_eq_sum, hsum, toUint8_natCast_div]
    omega
  refine ⟨hg, ?_, ?_, ?_, ?_⟩
  · intro lo hi hb
    rw [hg]
    unfold gaussNumerator
    have := hb 0 0; have := hb 0 1; have := hb 0 2
    have := hb 1 0; have := hb 1 1; have := hb 1 2
    have := hb 2 0; have := hb 2 1; have := hb 2 2
    omega
  · rw [hsum]
    norm_num
  · positivity
  · rw [div_le_iff₀ (by norm_num)]
    have : ((gaussNumerator src x y c : Nat) : ℚ) ≤ ((16 * 255 : Nat) : ℚ) := by
      exact_mod_cast hN
    norm_num at this ⊢
    exact this

/-- Witness for C19: the centre pixel of the scenario image, where the
gaussian blur gives `floor(920 / 16) = 57`. -/
theorem gaussian_blur_floor_witness :
    getPixelValue scenarioImage 1 1 0 (algorithms 3) = gaussNumerator scenarioImage 1 1 0 / 16 :=
  (gaussian_blur_floor scenarioImage 1 1 0 (by decide) (by decide) (by decide) (by decide)
    (by decide) (by decide) (by decide)).1

end PicProject
